import Mathlib

/-!
# Verification of the OpenAI bridge adapter

Shallow embedding of `scripts/script-adapters/python_openai_bridge.py`
and proofs about its translation layers.

JSON values are modelled by the inductive type `JVal`.  JSON numbers are
modelled as integers only: floating point values are out of scope, so
inputs whose parse would yield a Python float are modelled as parse
failures.  The Python standard library pieces the script relies on
(`json.dumps`, `json.loads`, `str.strip`, `str.lower`, `int(...)`,
truthiness and `or`-defaulting, `dict.get`) are embedded alongside the
script's own functions; each embedding notes the behaviour it models.
Places where the Python code would raise an uncaught exception (attribute
or type errors on unexpected shapes) are modelled by `Option`, with
`none` standing for the raised exception.
-/

/-- A JSON value as handled by the Python script: `None`, booleans,
numbers (restricted to integers, see the file comment), strings, lists
and string-keyed dicts (association lists, preserving insertion order). -/
inductive JVal where
  | null
  | bool (b : Bool)
  | int (n : Int)
  | str (s : String)
  | arr (xs : List JVal)
  | obj (fields : List (String × JVal))

/-- Python truthiness for JSON-representable values: `None`, `False`,
`0`, `""`, `[]` and `\x7b\x7d` are falsy, everything else is truthy. -/
def truthy : JVal → Bool
  | .null => false
  | .bool b => b
  | .int n => n != 0
  | .str s => s != ""
  | .arr xs => !xs.isEmpty
  | .obj ms => !ms.isEmpty

/-- Python `a or b` on JSON values: `a` when truthy, else `b`. -/
def pyOr (a b : JVal) : JVal := if truthy a then a else b

/-- Python `d.get(k)` on a dict given as field list: the first binding of
`k`, or `None` when absent.  (The script only calls `.get` on values it
has established to be dicts; see `asObj?` for the non-dict case.) -/
def oget (fields : List (String × JVal)) (k : String) : JVal :=
  match fields with
  | [] => .null
  | (k', v) :: rest => if k' = k then v else oget rest k

/-- View a value as a dict.  `none` models the `AttributeError` Python
raises when the script calls a dict method on a non-dict value. -/
def asObj? : JVal → Option (List (String × JVal))
  | .obj ms => some ms
  | _ => none

/-- View a value as a string.  `none` models the `AttributeError` Python
raises when the script calls a string method on a non-string value. -/
def asStr? : JVal → Option String
  | .str s => some s
  | _ => none

/-- Python whitespace as stripped by `str.strip()` (ASCII model). -/
def pyWsChar (c : Char) : Bool :=
  c = ' ' || c = '\t' || c = '\n' || c = '\r' || c = '\x0b' || c = '\x0c'

/-- Python `s.strip()` (ASCII whitespace model). -/
def pyStrip (s : String) : String :=
  String.mk (((s.toList.dropWhile pyWsChar).reverse.dropWhile pyWsChar).reverse)

/-- Python `s.lower()` (ASCII model). -/
def pyLower (s : String) : String := String.mk (s.toList.map Char.toLower)

/-! ## Model of `json.dumps(value, ensure_ascii=False)`

Default separators: `", "` between items, `": "` between key and value.
Strings are escaped exactly as CPython's encoder does with
`ensure_ascii=False`: `"` and `\` get a backslash, the control characters
with short escapes use them, the remaining control characters use
`\u00XX`, and all other characters pass through unchanged. -/

/-- Lower-case hex digit for a value below 16. -/
def hexDigit (n : Nat) : Char :=
  match n with
  | 0 => '0' | 1 => '1' | 2 => '2' | 3 => '3' | 4 => '4'
  | 5 => '5' | 6 => '6' | 7 => '7' | 8 => '8' | 9 => '9'
  | 10 => 'a' | 11 => 'b' | 12 => 'c' | 13 => 'd' | 14 => 'e' | 15 => 'f'
  | _ => '*'

/-- Decimal digit character for a value below 10. -/
def digitChar (n : Nat) : Char :=
  match n with
  | 0 => '0' | 1 => '1' | 2 => '2' | 3 => '3' | 4 => '4'
  | 5 => '5' | 6 => '6' | 7 => '7' | 8 => '8' | 9 => '9'
  | _ => '*'

/-- Decimal digits of a natural number, most significant first; the fuel
argument only serves structural termination and `n + 1` always suffices. -/
def natDigitsAux : Nat → Nat → List Char
  | 0, _ => []
  | fuel+1, n =>
    if n < 10 then [digitChar n]
    else natDigitsAux fuel (n / 10) ++ [digitChar (n % 10)]

/-- Decimal digits of a natural number, most significant first. -/
def natDigits (n : Nat) : List Char := natDigitsAux (n + 1) n

/-- Decimal rendering of an integer, as `json.dumps` prints it. -/
def dumpInt : Int → List Char
  | .ofNat m => natDigits m
  | .negSucc m => '-' :: natDigits (m + 1)

/-- JSON escape of one character (CPython `ensure_ascii=False` table). -/
def escChar (c : Char) : List Char :=
  if c = '"' then ['\\', '"']
  else if c = '\\' then ['\\', '\\']
  else if c = '\n' then ['\\', 'n']
  else if c = '\r' then ['\\', 'r']
  else if c = '\t' then ['\\', 't']
  else if c = '\x08' then ['\\', 'b']
  else if c = '\x0c' then ['\\', 'f']
  else if c.toNat < 32 then
    ['\\', 'u', '0', '0', hexDigit (c.toNat / 16), hexDigit (c.toNat % 16)]
  else [c]

/-- JSON escape of a character sequence. -/
def escList (cs : List Char) : List Char := (cs.map escChar).flatten

/-- Shorthand for a string literal's characters. -/
def toL (s : String) : List Char := s.toList

/-- Interleave a separator between rendered elements. -/
def joinSep {α : Type} (sep : List Char) (f : α → List Char) : List α → List Char
  | [] => []
  | [x] => f x
  | x :: y :: xs => f x ++ sep ++ joinSep sep f (y :: xs)

/-- Structural size of a JSON value, used as recursion fuel for the
renderer: any fuel at least `jsize v` lets `dumpVal` finish. -/
def jsize : JVal → Nat
  | .null => 1
  | .bool _ => 1
  | .int _ => 1
  | .str _ => 1
  | .arr xs => 1 + (xs.attach.map (fun x => jsize x.1)).sum
  | .obj ms => 1 + (ms.attach.map (fun m => jsize m.1.2)).sum
decreasing_by
  · have h1 : sizeOf x.1 < sizeOf xs := List.sizeOf_lt_of_mem x.2
    simp only [JVal.arr.sizeOf_spec]
    omega
  · have h1 : sizeOf m.1 < sizeOf ms := List.sizeOf_lt_of_mem m.2
    have h2 : sizeOf m.1.2 < sizeOf m.1 := by
      obtain ⟨a, b⟩ := m.1
      simp only [Prod.mk.sizeOf_spec]
      omega
    simp only [JVal.obj.sizeOf_spec]
    omega

/-- Characters of `json.dumps(v, ensure_ascii=False)`.  The fuel argument
only serves structural termination; any fuel at least `jsize v` gives
the real rendering. -/
def dumpVal : Nat → JVal → List Char
  | 0 => fun _ => []
  | fuel+1 => fun v =>
    match v with
    | .null => toL "null"
    | .bool true => toL "true"
    | .bool false => toL "false"
    | .int n => dumpInt n
    | .str s => '"' :: escList s.toList ++ ['"']
    | .arr xs => '[' :: joinSep (toL ", ") (dumpVal fuel) xs ++ [']']
    | .obj ms =>
      '\x7b' :: joinSep (toL ", ")
        (fun m => '"' :: escList m.1.toList ++ '"' :: ':' :: ' ' :: dumpVal fuel m.2)
        ms ++ ['\x7d']

/-- Model of `json.dumps(v, ensure_ascii=False)`. -/
def dumps (v : JVal) : String := String.mk (dumpVal (jsize v) v)

/-- Model of the script's `to_text`: `None` becomes `""`, strings pass
through, everything else is JSON-encoded. -/
def to_text : JVal → String
  | .null => ""
  | .str s => s
  | v => dumps v

/-! ## Model of `json.loads`

A recursive-descent parser over the character list, returning the parsed
value and the unconsumed suffix.  The fuel arguments only serve
structural termination; `loads` supplies `length + 1`, which always
suffices because every nesting step first consumes a character.
Deviations from CPython, all outside what the script's inputs exercise:
numbers with a fraction, exponent, `Infinity` or `NaN` part would parse
to Python floats and are modelled as failures, and a `\uXXXX` escape
denoting a lone surrogate maps to the replacement value of `Char.ofNat`
rather than a surrogate code unit. -/

/-- JSON whitespace skipped between tokens (the four RFC characters). -/
def isJsonWs (c : Char) : Bool := c = ' ' || c = '\t' || c = '\n' || c = '\r'

/-- Drop leading JSON whitespace. -/
def skipWs : List Char → List Char
  | [] => []
  | c :: cs => if isJsonWs c then skipWs cs else c :: cs

/-- Value of a hex digit character, either case. -/
def hexVal (c : Char) : Option Nat :=
  if '0' ≤ c ∧ c ≤ '9' then some (c.toNat - 48)
  else if 'a' ≤ c ∧ c ≤ 'f' then some (c.toNat - 87)
  else if 'A' ≤ c ∧ c ≤ 'F' then some (c.toNat - 55)
  else none

/-- Prepend a character to a string-parse result. -/
def pcons (c : Char) (r : Option (List Char × List Char)) :
    Option (List Char × List Char) :=
  r.map (fun p => (c :: p.1, p.2))

/-- Parse a JSON string body (after the opening quote) up to and
including the closing quote, decoding escapes as CPython's strict
scanner does; unescaped control characters are rejected. -/
def pString : List Char → Option (List Char × List Char)
  | [] => none
  | c :: cs =>
    if c = '"' then some ([], cs)
    else if c = '\\' then
      match cs with
      | [] => none
      | e :: cs' =>
        if e = '"' then pcons '"' (pString cs')
        else if e = '\\' then pcons '\\' (pString cs')
        else if e = '/' then pcons '/' (pString cs')
        else if e = 'n' then pcons '\n' (pString cs')
        else if e = 't' then pcons '\t' (pString cs')
        else if e = 'r' then pcons '\r' (pString cs')
        else if e = 'b' then pcons '\x08' (pString cs')
        else if e = 'f' then pcons '\x0c' (pString cs')
        else if e = 'u' then
          match cs' with
          | h1 :: h2 :: h3 :: h4 :: cs'' =>
            match hexVal h1, hexVal h2, hexVal h3, hexVal h4 with
            | some a, some b, some c2, some d =>
              pcons (Char.ofNat (((a * 16 + b) * 16 + c2) * 16 + d)) (pString cs'')
            | _, _, _, _ => none
          | _ => none
        else none
    else if c.toNat < 32 then none
    else pcons c (pString cs)

/-- Split off the longest leading run of decimal digits. -/
def takeDigits (cs : List Char) : List Char × List Char :=
  (cs.takeWhile Char.isDigit, cs.dropWhile Char.isDigit)

/-- Accumulate decimal digits into a value. -/
def digitsToNat : List Char → Nat → Nat
  | [], acc => acc
  | c :: cs, acc => digitsToNat cs (acc * 10 + (c.toNat - 48))

/-- Parse a JSON unsigned integer part: a lone `0`, or a digit run not
starting with `0`. -/
def pUNat (cs : List Char) : Option (Nat × List Char) :=
  match cs with
  | '0' :: rest => some (0, rest)
  | _ =>
    let p := takeDigits cs
    if p.1.isEmpty then none else some (digitsToNat p.1 0, p.2)

/-- Parse a JSON integer with optional leading minus sign. -/
def pInt : List Char → Option (Int × List Char)
  | '-' :: cs => (pUNat cs).map (fun p => (-(p.1 : Int), p.2))
  | cs => (pUNat cs).map (fun p => ((p.1 : Int), p.2))

/-- Match an exact literal tail, returning the rest. -/
def dropLit : List Char → List Char → Option (List Char)
  | [], cs => some cs
  | l :: ls, c :: cs => if c = l then dropLit ls cs else none
  | _ :: _, [] => none

/-- Replace the binding of `k`, keeping its position, or append it:
Python dict insertion. -/
def objInsert : List (String × JVal) → String → JVal → List (String × JVal)
  | [], k, v => [(k, v)]
  | (k', v') :: rest, k, v =>
    if k' = k then (k', v) :: rest else (k', v') :: objInsert rest k v

/-- Build a dict from parsed members in order, later keys winning. -/
def objFoldl (acc : List (String × JVal)) : List (String × JVal) → List (String × JVal)
  | [] => acc
  | (k, v) :: ms => objFoldl (objInsert acc k v) ms

/-- Parse the members of an array after the first element: a closing
bracket, or comma-separated further elements. -/
def pListRest (pv : List Char → Option (JVal × List Char)) :
    Nat → List Char → Option (List JVal × List Char)
  | 0, _ => none
  | g+1, cs =>
    match skipWs cs with
    | ']' :: rest => some ([], rest)
    | ',' :: cs' =>
      match pv cs' with
      | none => none
      | some (v, r) =>
        match pListRest pv g r with
        | none => none
        | some (vs, r') => some (v :: vs, r')
    | _ => none

/-- Parse one object member: a quoted key, a colon, a value. -/
def pMemberF (pv : List Char → Option (JVal × List Char)) (cs : List Char) :
    Option ((String × JVal) × List Char) :=
  match skipWs cs with
  | '"' :: cs' =>
    match pString cs' with
    | none => none
    | some (k, r) =>
      match skipWs r with
      | ':' :: r' =>
        match pv r' with
        | none => none
        | some (v, r'') => some ((String.mk k, v), r'')
      | _ => none
  | _ => none

/-- Parse the members of an object after the first member: a closing
brace, or comma-separated further members. -/
def pObjRest (pm : List Char → Option ((String × JVal) × List Char)) :
    Nat → List Char → Option (List (String × JVal) × List Char)
  | 0, _ => none
  | g+1, cs =>
    match skipWs cs with
    | '\x7d' :: rest => some ([], rest)
    | ',' :: cs' =>
      match pm cs' with
      | none => none
      | some (m, r) =>
        match pObjRest pm g r with
        | none => none
        | some (ms, r') => some (m :: ms, r')
    | _ => none

/-- Parse one JSON value, skipping leading whitespace. -/
def pVal : Nat → List Char → Option (JVal × List Char)
  | 0 => fun _ => none
  | fuel+1 => fun cs =>
    match skipWs cs with
    | [] => none
    | c :: cs' =>
      if c = '\x7b' then
        match skipWs cs' with
        | '\x7d' :: rest => some (.obj [], rest)
        | _ =>
          match pMemberF (pVal fuel) cs' with
          | none => none
          | some (m, r) =>
            match pObjRest (pMemberF (pVal fuel)) fuel r with
            | none => none
            | some (ms, r') => some (.obj (objFoldl [] (m :: ms)), r')
      else if c = '[' then
        match skipWs cs' with
        | ']' :: rest => some (.arr [], rest)
        | _ =>
          match pVal fuel cs' with
          | none => none
          | some (v, r) =>
            match pListRest (pVal fuel) fuel r with
            | none => none
            | some (vs, r') => some (.arr (v :: vs), r')
      else if c = '"' then
        match pString cs' with
        | none => none
        | some (s, r) => some (.str (String.mk s), r)
      else if c = 't' then
        match dropLit (toL "rue") cs' with
        | some r => some (.bool true, r)
        | none => none
      else if c = 'f' then
        match dropLit (toL "alse") cs' with
        | some r => some (.bool false, r)
        | none => none
      else if c = 'n' then
        match dropLit (toL "ull") cs' with
        | some r => some (.null, r)
        | none => none
      else if c = '-' ∨ c.isDigit then
        match pInt (c :: cs') with
        | none => none
        | some (n, r) => some (.int n, r)
      else none

/-- Model of `json.loads`: parse one value, allow trailing whitespace,
reject anything else left over. -/
def loads (s : String) : Option JVal :=
  match pVal (s.length + 1) s.toList with
  | some (v, rest) => if (skipWs rest).isEmpty then some v else none
  | none => none

/-- Model of Python `int(value)` on JSON-representable values: bools map
to 0 or 1, integers pass through, strings are stripped and parsed as an
optionally signed digit run, everything else raises (`none`).  Digit
separators (underscores) are not modelled. -/
def pyInt : JVal → Option Int
  | .bool b => some (if b then 1 else 0)
  | .int n => some n
  | .str s =>
    match (pyStrip s).toList with
    | '-' :: ds =>
      if !ds.isEmpty && ds.all Char.isDigit then some (-(digitsToNat ds 0 : Int)) else none
    | '+' :: ds =>
      if !ds.isEmpty && ds.all Char.isDigit then some ((digitsToNat ds 0 : Int)) else none
    | ds =>
      if !ds.isEmpty && ds.all Char.isDigit then some ((digitsToNat ds 0 : Int)) else none
  | _ => none

/-! ## Backend message and tool shapes

The dicts the script builds are modelled as structures.  A key the
script adds only conditionally (`tool_calls`, `tool_call_id`) is an
`Option` field, `none` meaning the key is absent.  Fields the script
fills from `.get(...) or ...` chains can carry arbitrary JSON values,
so they are typed `JVal`. -/

/-- One entry of an assistant message's `tool_calls` list. -/
structure ToolCall where
  type : String
  id : JVal
  name : JVal
  arguments : String

/-- One backend chat message as built by `blocks_to_openai_messages`. -/
structure OpenAIMsg where
  role : String
  content : String
  tool_calls : Option (List ToolCall) := none
  tool_call_id : Option JVal := none

/-- One backend tool declaration as built by `canonical_to_openai_tools`
(the constant outer `"type": "function"` wrapper is the `type` field). -/
structure OpenAITool where
  type : String
  name : JVal
  description : String
  parameters : JVal

/-- Tool call entry built from an assistant `tool_use` block's fields. -/
def mkToolCall (fields : List (String × JVal)) : ToolCall :=
  { type := "function"
    id := pyOr (oget fields "id") (.str "")
    name := pyOr (oget fields "name") (.str "")
    arguments := dumps (pyOr (oget fields "input") (.obj [])) }

/-- The assistant-branch scan of `blocks_to_openai_messages`: walk the
blocks in order, accumulating text parts and tool calls. -/
def asstScan : List JVal → List String × List ToolCall
  | [] => ([], [])
  | b :: bs =>
    let r := asstScan bs
    match b with
    | .obj fields =>
      match oget fields "type" with
      | .str s =>
        if s = "text" then (to_text (oget fields "text") :: r.1, r.2)
        else if s = "tool_use" then (r.1, mkToolCall fields :: r.2)
        else r
      | _ => r
    | v => (to_text v :: r.1, r.2)

/-- Tool-role message built from a user `tool_result` block's fields. -/
def mkToolMsg (fields : List (String × JVal)) : OpenAIMsg :=
  { role := "tool"
    content := to_text (oget fields "content")
    tool_call_id :=
      some (pyOr (oget fields "tool_use_id") (pyOr (oget fields "id") (.str ""))) }

/-- The user-branch scan of `blocks_to_openai_messages`: walk the blocks
in order, accumulating text parts and emitting tool-role messages. -/
def userScan : List JVal → List String × List OpenAIMsg
  | [] => ([], [])
  | b :: bs =>
    let r := userScan bs
    match b with
    | .obj fields =>
      match oget fields "type" with
      | .str s =>
        if s = "tool_result" then (r.1, mkToolMsg fields :: r.2)
        else if s = "text" then (to_text (oget fields "text") :: r.1, r.2)
        else (to_text (.obj fields) :: r.1, r.2)
      | _ => (to_text (.obj fields) :: r.1, r.2)
    | v => (to_text v :: r.1, r.2)

/-- Model of `blocks_to_openai_messages(role, content)`. -/
def blocks_to_openai_messages (role : String) (content : JVal) : List OpenAIMsg :=
  match content with
  | .str s => [{ role := role, content := s }]
  | .arr blocks =>
    if role = "assistant" then
      let r := asstScan blocks
      [{ role := "assistant"
         content :=
           if r.1.isEmpty then ""
           else String.intercalate "\n" (r.1.filter (fun x => x ≠ ""))
         tool_calls := if r.2.isEmpty then none else some r.2 }]
    else if role = "user" then
      let r := userScan blocks
      let out :=
        if r.1.isEmpty then r.2
        else { role := "user", content := String.intercalate "\n" r.1 : OpenAIMsg } :: r.2
      if out.isEmpty then [{ role := "user", content := "" }] else out
    else [{ role := role, content := to_text (.arr blocks) }]
  | v => [{ role := role, content := to_text v }]

/-- Translate one canonical message dict: normalise its role (defaulting
to `"user"`), then split its content.  `none` models the exception
Python raises when the role value is a truthy non-string. -/
def msgToOpenai (fields : List (String × JVal)) : Option (List OpenAIMsg) :=
  match asStr? (pyOr (oget fields "role") (.str "user")) with
  | none => none
  | some r =>
    let role := if pyStrip r = "" then "user" else pyStrip r
    some (blocks_to_openai_messages role (oget fields "content"))

/-- Translate a list of canonical messages, concatenating the results;
`none` models an exception on a non-dict element. -/
def msgsToOpenai : List JVal → Option (List OpenAIMsg)
  | [] => some []
  | m :: ms =>
    match asObj? m with
    | none => none
    | some fields =>
      match msgToOpenai fields with
      | none => none
      | some first =>
        match msgsToOpenai ms with
        | none => none
        | some rest => some (first ++ rest)

/-- Model of `canonical_to_openai_messages(system_prompt, messages)`. -/
def canonical_to_openai_messages (system_prompt messages : JVal) : Option (List OpenAIMsg) :=
  let sys : List OpenAIMsg :=
    match system_prompt with
    | .null => []
    | sp => if to_text sp ≠ "" then [{ role := "system", content := to_text sp }] else []
  match pyOr messages (.arr []) with
  | .arr ms =>
    match msgsToOpenai ms with
    | none => none
    | some rest => some (sys ++ rest)
  | _ => none

/-- The fallback parameters schema for tools without an input schema. -/
def defaultSchema : JVal := .obj [("type", .str "object"), ("properties", .obj [])]

/-- Translate one canonical tool dict; `none` models the exception on a
non-dict tool or a truthy non-string description. -/
def toolToOpenai (fields : List (String × JVal)) : Option OpenAITool :=
  match asStr? (pyOr (oget fields "description") (.str "")) with
  | none => none
  | some d =>
    some
      { type := "function"
        name := pyOr (oget fields "name") (.str "")
        description := if pyStrip d = "" then "No description provided" else pyStrip d
        parameters := pyOr (oget fields "input_schema") defaultSchema }

/-- Translate the canonical tool list element by element. -/
def toolsToOpenai : List JVal → Option (List OpenAITool)
  | [] => some []
  | t :: ts =>
    match asObj? t with
    | none => none
    | some fields =>
      match toolToOpenai fields with
      | none => none
      | some spec =>
        match toolsToOpenai ts with
        | none => none
        | some rest => some (spec :: rest)

/-- Model of `canonical_to_openai_tools(tools)`. -/
def canonical_to_openai_tools (tools : JVal) : Option (List OpenAITool) :=
  match pyOr tools (.arr []) with
  | .arr ts => toolsToOpenai ts
  | _ => none

/-- Model of the `tools` key of the payload built in `main`: present
exactly when the translated list is non-empty. -/
def payload_tools (tools : List OpenAITool) : Option (List OpenAITool) :=
  if tools.isEmpty then none else some tools

/-- Model of the `max_tokens` payload entry built in `main`:
`int(request.get("max_tokens") or 1024)`. -/
def resolved_max_tokens (request : JVal) : Option Int :=
  match asObj? request with
  | none => none
  | some fields => pyInt (pyOr (oget fields "max_tokens") (.int 1024))

/-! ## Response side -/

/-- One canonical content block of the translated response: the dicts
`parse_openai_response` appends to its `blocks` list. -/
inductive RespBlock where
  | text (text : String)
  | tool_use (id : JVal) (name : JVal) (input : JVal)

/-- Token usage of the translated response. -/
structure Usage where
  input_tokens : Int
  output_tokens : Int

/-- The canonical response document `parse_openai_response` returns. -/
structure CanonResponse where
  model : JVal
  blocks : List RespBlock
  stop_reason : String
  usage : Usage

/-- The tool-call arguments decoding step of `parse_openai_response`:
a non-blank string is JSON-parsed with a raw-wrapping fallback, a dict
passes through, anything else becomes an empty object. -/
def decodeArgs (args : JVal) : JVal :=
  match args with
  | .str s =>
    if pyStrip s ≠ "" then
      match loads s with
      | some v => v
      | none => .obj [("_raw", .str s)]
    else .obj []
  | .obj fs => .obj fs
  | _ => .obj []

/-- Translate one backend tool-call entry into a `tool_use` block;
`none` models the exception on non-dict entries. -/
def tcToBlock (tc : JVal) : Option RespBlock :=
  match asObj? tc with
  | none => none
  | some tf =>
    match asObj? (pyOr (oget tf "function") (.obj [])) with
    | none => none
    | some ff =>
      some (.tool_use (pyOr (oget tf "id") (.str ""))
        (pyOr (oget ff "name") (.str ""))
        (decodeArgs (oget ff "arguments")))

/-- Translate the backend tool-call list element by element. -/
def tcsToBlocks : List JVal → Option (List RespBlock)
  | [] => some []
  | tc :: tcs =>
    match tcToBlock tc with
    | none => none
    | some b =>
      match tcsToBlocks tcs with
      | none => none
      | some bs => some (b :: bs)

/-- The finish-reason mapping of `parse_openai_response`, applied to the
already stripped and lowered string. -/
def stopOf (finish_reason : String) : String :=
  if finish_reason = "tool_calls" ∨ finish_reason = "function_call" then "tool_use"
  else if finish_reason = "length" then "max_tokens"
  else "end_turn"

/-- Model of `parse_openai_response(obj)`.  `none` models an uncaught
Python exception on response shapes the script cannot digest. -/
def parse_openai_response (obj : JVal) : Option CanonResponse :=
  match asObj? obj with
  | none => none
  | some f =>
    let choices := pyOr (oget f "choices") (.arr [])
    match
      (match choices with
        | .arr (c :: _) => some c
        | .arr [] => some (.obj [])
        | _ => none : Option JVal) with
    | none => none
    | some choice =>
      match asObj? choice with
      | none => none
      | some cf =>
        match asObj? (pyOr (oget cf "message") (.obj [])) with
        | none => none
        | some mf =>
          let textBlocks : List RespBlock :=
            match oget mf "content" with
            | .str s => if s ≠ "" then [.text s] else []
            | _ => []
          match
            (match pyOr (oget mf "tool_calls") (.arr []) with
              | .arr tcs => some tcs
              | _ => none : Option (List JVal)) with
          | none => none
          | some tcs =>
            match tcsToBlocks tcs with
            | none => none
            | some toolBlocks =>
              match asStr? (pyOr (oget cf "finish_reason") (.str "")) with
              | none => none
              | some fr =>
                match asObj? (pyOr (oget f "usage") (.obj [])) with
                | none => none
                | some uf =>
                  match pyInt (pyOr (oget uf "prompt_tokens") (.int 0)),
                      pyInt (pyOr (oget uf "completion_tokens") (.int 0)) with
                  | some inTok, some outTok =>
                    some
                      { model := pyOr (oget f "model") (.str "")
                        blocks := textBlocks ++ toolBlocks
                        stop_reason := stopOf (pyLower (pyStrip fr))
                        usage := { input_tokens := inTok, output_tokens := outTok } }
                  | _, _ => none

/-! ## Auxiliary notions used by the theorems -/

/-- Is the value `None`? -/
def isNull : JVal → Bool
  | .null => true
  | _ => false

/-- Is the value a dict? -/
def isDict : JVal → Bool
  | .obj _ => true
  | _ => false

/-- Is the block a dict with `type` equal to `"tool_use"`? -/
def isToolUseBlock : JVal → Bool
  | .obj fields =>
    match oget fields "type" with
    | .str s => s = "tool_use"
    | _ => false
  | _ => false

/-- The text contribution of one block in the assistant branch, if any. -/
def asstTextPart : JVal → Option String
  | .obj fields =>
    match oget fields "type" with
    | .str s =>
      if s = "text" then some (to_text (oget fields "text"))
      else none
    | _ => none
  | v => some (to_text v)

/-- The tool-call contribution of one block in the assistant branch, if
any. -/
def asstToolCall : JVal → Option ToolCall
  | .obj fields =>
    match oget fields "type" with
    | .str s => if s = "text" then none else if s = "tool_use" then some (mkToolCall fields) else none
    | _ => none
  | _ => none

/-- Is the block one of the three recognised dict shapes (a dict whose
`type` is `"text"`, `"tool_use"` or `"tool_result"`)? -/
def recognizedShape : JVal → Bool
  | .obj fields =>
    match oget fields "type" with
    | .str s => s = "text" || s = "tool_use" || s = "tool_result"
    | _ => false
  | _ => false

/-- Tool call built from any block value; on dict blocks it is
`mkToolCall` of the fields (only used under `isToolUseBlock`). -/
def mkTC : JVal → ToolCall
  | .obj fields => mkToolCall fields
  | _ => { type := "function", id := .str "", name := .str "", arguments := dumps (.obj []) }

/-- The text contribution of one block in the user branch, if any. -/
def userTextPart : JVal → Option String
  | .obj fields =>
    match oget fields "type" with
    | .str s =>
      if s = "tool_result" then none
      else if s = "text" then some (to_text (oget fields "text"))
      else some (to_text (.obj fields))
    | _ => some (to_text (.obj fields))
  | v => some (to_text v)

/-- The tool-role message of one block in the user branch, if any. -/
def userToolMsg : JVal → Option OpenAIMsg
  | .obj fields =>
    match oget fields "type" with
    | .str s => if s = "tool_result" then some (mkToolMsg fields) else none
    | _ => none
  | _ => none

/-- The inputs of the `tool_use` blocks of a canonical response, in
order. -/
def respInputs (r : CanonResponse) : List JVal :=
  r.blocks.filterMap (fun b =>
    match b with
    | .tool_use _ _ i => some i
    | _ => none)

/-- A backend response whose single choice carries one tool call with
the given `arguments` value, used to probe the argument decoder. -/
def respWithArgs (args : JVal) : JVal :=
  .obj [("choices", .arr [.obj [("message", .obj [("tool_calls",
    .arr [.obj [("function", .obj [("arguments", args)])]])])]])]

/-- A backend response whose single choice carries the given
`finish_reason` entry (absent when `none`), used to probe the
finish-reason mapping. -/
def respWithFinish (fr : Option String) : JVal :=
  .obj [("choices", .arr [.obj
    (("message", JVal.obj []) ::
      (match fr with
        | some s => [("finish_reason", JVal.str s)]
        | none => []))])]

/-- A full backend response with text content, a tool call carrying the
given arguments string, a finish reason, usage and model, used to show
local recovery from malformed arguments. -/
def respFull (args : String) : JVal :=
  .obj [("model", .str "m"),
    ("choices", .arr [.obj [
      ("message", .obj [
        ("content", .str "hello"),
        ("tool_calls", .arr [.obj [
          ("id", .str "call1"),
          ("function", .obj [("name", .str "f"), ("arguments", .str args)])]])]),
      ("finish_reason", .str "tool_calls")]]),
    ("usage", .obj [("prompt_tokens", .int 3), ("completion_tokens", .int 5)])]

/-- The `arguments` string of the first tool call of the first message,
used to read back what the request side encoded. -/
def argsOf (msgs : List OpenAIMsg) : String :=
  match msgs with
  | m :: _ =>
    match m.tool_calls with
    | some (tc :: _) => tc.arguments
    | _ => ""
  | [] => ""

/-- The finish-reason to stop-reason table in the spec's words: trim,
lower-case, then `tool_calls` and `function_call` give `tool_use`,
`length` gives `max_tokens`, and everything else gives `end_turn`. -/
def specStopReason (finish_reason : String) : String :=
  if pyLower (pyStrip finish_reason) = "tool_calls" then "tool_use"
  else if pyLower (pyStrip finish_reason) = "function_call" then "tool_use"
  else if pyLower (pyStrip finish_reason) = "length" then "max_tokens"
  else "end_turn"

/-- One tool declaration in the spec's words, with the correction the
code forces: `parameters` is the tool's `input_schema` when that value
is truthy (present and non-empty), else the default schema; the
description is the trimmed description when non-blank, else the literal
fallback; the name defaults to the empty string. -/
def specToolSpec (t : JVal) : Option OpenAITool :=
  match asObj? t with
  | none => none
  | some fields =>
    match asStr? (pyOr (oget fields "description") (.str "")) with
    | none => none
    | some d =>
      some
        { type := "function"
          name := pyOr (oget fields "name") (.str "")
          description := if pyStrip d = "" then "No description provided" else pyStrip d
          parameters :=
            if truthy (oget fields "input_schema") then oget fields "input_schema"
            else defaultSchema }

/-- JSON values representable as Python data without loss: every dict
along the value, being a Python dict, has pairwise distinct keys. -/
inductive Wf : JVal → Prop
  | null : Wf .null
  | bool (b : Bool) : Wf (.bool b)
  | int (n : Int) : Wf (.int n)
  | str (s : String) : Wf (.str s)
  | arr (xs : List JVal) : (∀ x ∈ xs, Wf x) → Wf (.arr xs)
  | obj (ms : List (String × JVal)) : (ms.map Prod.fst).Nodup →
      (∀ m ∈ ms, Wf m.2) → Wf (.obj ms)

/-- The unrecognised assistant block of the dropped-block
counterexample. -/
def imgBlock : JVal := .obj [("type", .str "image"), ("data", .str "x")]

/-- A character list that cannot extend a just-parsed numeral: empty or
starting with a non-digit.  Every suffix the renderer places after a
value (a separator or closing bracket, or nothing) satisfies this. -/
def noDigitHead (cs : List Char) : Prop :=
  match cs with
  | [] => True
  | c :: _ => c.isDigit = false

/-! ## Helper lemmas -/

theorem pyOr_str_empty (s : String) : pyOr (.str s) (.str "") = .str s := by
  by_cases h : s = "" <;> simp [pyOr, truthy, h]

theorem pyOr_arr_empty (xs : List JVal) : pyOr (.arr xs) (.arr []) = .arr xs := by
  by_cases h : xs.isEmpty <;>
    simp_all [pyOr, truthy, List.isEmpty_iff]

theorem blocks_nonempty (role : String) (content : JVal) :
    blocks_to_openai_messages role content ≠ [] := by
  unfold blocks_to_openai_messages
  cases content <;> try simp
  rename_i xs
  by_cases ha : role = "assistant"
  · simp [ha]
  · by_cases hu : role = "user"
    · simp only [ha, hu, if_false, if_true]
      by_cases h1 : (userScan xs).1.isEmpty <;>
        by_cases h2 : (userScan xs).2.isEmpty <;>
          simp_all [List.isEmpty_iff]
    · simp [ha, hu]

/-! ## C2: at least one backend message -/

/-- C2 counterexample: the empty canonical request (no system prompt,
empty messages sequence) translates to an empty backend message list,
so `canonical_to_openai_messages` does not always produce at least one
backend message. -/
theorem c2_counterexample : canonical_to_openai_messages .null (.arr []) = some [] := rfl

theorem msgsToOpenai_cons_ne_nil (m : JVal) (ms : List JVal) (rest : List OpenAIMsg)
    (h : msgsToOpenai (m :: ms) = some rest) : rest ≠ [] := by
  unfold msgsToOpenai at h
  rcases ho : asObj? m with _ | fields
  · simp [ho] at h
  simp only [ho] at h
  rcases h1 : msgToOpenai fields with _ | first
  · simp [h1] at h
  simp only [h1] at h
  rcases h2 : msgsToOpenai ms with _ | rest'
  · simp [h2] at h
  simp only [h2, Option.some.injEq] at h
  have hfirst : first ≠ [] := by
    unfold msgToOpenai at h1
    rcases h3 : asStr? (pyOr (oget fields "role") (.str "user")) with _ | r
    · simp [h3] at h1
    simp only [h3, Option.some.injEq] at h1
    rw [← h1]
    exact blocks_nonempty _ _
  rw [← h]
  simp [hfirst]

/-- C2 (amended): whenever the messages sequence is non-empty, or the
system prompt is non-null and stringifies to a non-empty string, the
translated request has at least one backend message; each canonical
message always contributes at least one backend message. -/
theorem c2_amended (sp : JVal) (msgs : List JVal) (out : List OpenAIMsg)
    (h : canonical_to_openai_messages sp (.arr msgs) = some out)
    (hne : msgs ≠ [] ∨ (isNull sp = false ∧ to_text sp ≠ "")) : out ≠ [] := by
  unfold canonical_to_openai_messages at h
  rw [pyOr_arr_empty] at h
  simp only [] at h
  rcases hmsgs : msgsToOpenai msgs with _ | rest
  · simp [hmsgs] at h
  simp only [hmsgs, Option.some.injEq] at h
  subst h
  rcases hne with hne | ⟨hn, ht⟩
  · have hrest : rest ≠ [] := by
      obtain ⟨m, ms, rfl⟩ := List.exists_cons_of_ne_nil hne
      exact msgsToOpenai_cons_ne_nil m ms rest hmsgs
    simp [hrest]
  · cases sp <;> simp_all [isNull]

/-- Witness for `c2_amended` at a one-message request. -/
theorem c2_amended_witness :
    ([{ role := "user", content := "Hi" }] : List OpenAIMsg) ≠ [] :=
  c2_amended .null [.obj [("role", .str "user"), ("content", .str "Hi")]]
    [{ role := "user", content := "Hi" }] rfl (Or.inl (by simp))

/-! ## C10: max_tokens defaulting -/

/-- C10 counterexample: a request with `max_tokens` equal to `false`
gets the default 1024, although the integer coercion of `false` is 0;
the code treats every falsy value as absent, not only null and zero. -/
theorem c10_counterexample :
    resolved_max_tokens (.obj [("max_tokens", .bool false)]) = some 1024 ∧
      pyInt (.bool false) = some 0 ∧ (1024 : Int) ≠ 0 :=
  ⟨rfl, rfl, by decide⟩

/-- C10 (amended): the payload's `max_tokens` is 1024 whenever the
request's `max_tokens` is absent or falsy (null, zero, `false`, empty
string, empty list, empty dict), and the integer coercion of the given
value otherwise. -/
theorem c10_amended (fields : List (String × JVal)) :
    resolved_max_tokens (.obj fields) =
      (if truthy (oget fields "max_tokens") then pyInt (oget fields "max_tokens")
       else some 1024) := by
  unfold resolved_max_tokens asObj? pyOr
  by_cases h : truthy (oget fields "max_tokens") <;> simp [h, pyInt]

/-! ## C7: unrecognised block shapes -/

theorem jsize_ne_zero (v : JVal) : jsize v ≠ 0 := by
  cases v <;> simp [jsize]

theorem dumps_obj_head (ms : List (String × JVal)) :
    ∃ l, dumps (.obj ms) = String.mk ('\x7b' :: l) := by
  unfold dumps
  rcases hn : jsize (.obj ms) with _ | k
  · exact absurd hn (jsize_ne_zero _)
  · exact ⟨_, rfl⟩

theorem to_text_obj_ne_empty (ms : List (String × JVal)) : to_text (.obj ms) ≠ "" := by
  obtain ⟨l, hl⟩ := dumps_obj_head ms
  have : to_text (.obj ms) = dumps (.obj ms) := rfl
  rw [this, hl]
  intro hcontra
  have : ('\x7b' :: l) = ("" : String).data := congrArg String.data hcontra
  simp at this

theorem intercalate_single (sep x : String) : sep.intercalate [x] = x := rfl

theorem intercalate_nil (sep : String) : sep.intercalate [] = "" := rfl

theorem userScan_decomp (blocks : List JVal) :
    userScan blocks = (blocks.filterMap userTextPart, blocks.filterMap userToolMsg) := by
  induction blocks with
  | nil => rfl
  | cons b bs ih =>
    simp only [userScan, List.filterMap_cons, ih]
    cases b with
    | obj fields =>
      rcases ht : oget fields "type" with _ | _ | _ | s | _ | _ <;>
        simp only [userTextPart, userToolMsg, ht] <;>
        try simp
      by_cases h1 : s = "tool_result" <;> by_cases h2 : s = "text" <;>
        simp_all
    | _ => simp [userTextPart, userToolMsg]

theorem asstScan_decomp (blocks : List JVal) :
    asstScan blocks = (blocks.filterMap asstTextPart, blocks.filterMap asstToolCall) := by
  induction blocks with
  | nil => rfl
  | cons b bs ih =>
    simp only [asstScan, List.filterMap_cons, ih]
    cases b with
    | obj fields =>
      rcases ht : oget fields "type" with _ | _ | _ | s | _ | _ <;>
        simp only [asstTextPart, asstToolCall, ht] <;>
        try simp
      by_cases h1 : s = "text" <;> by_cases h2 : s = "tool_use" <;>
        simp_all
    | _ => simp [asstTextPart, asstToolCall]

theorem unrec_parts (b : JVal) (h : recognizedShape b = false) :
    userTextPart b = some (to_text b) ∧ userToolMsg b = none ∧
      asstTextPart b = (if isDict b then none else some (to_text b)) ∧
      asstToolCall b = none := by
  cases b with
  | obj fields =>
    simp only [recognizedShape] at h
    rcases ht : oget fields "type" with _ | _ | _ | s | _ | _ <;>
      rw [ht] at h <;>
      simp only [userTextPart, userToolMsg, asstTextPart, asstToolCall, isDict, ht] <;>
      try simp
    simp only [Bool.or_eq_false_iff, decide_eq_false_iff_not] at h
    simp [h.1.1, h.1.2, h.2]
  | _ => simp [userTextPart, userToolMsg, asstTextPart, asstToolCall, isDict]

/-- C7 counterexample: an assistant block list holding one unrecognised
dict block (`type` equal to `"image"`) yields an assistant message with
empty content and no tool calls — the block's non-empty text coercion is
dropped, not included. -/
theorem c7_counterexample :
    blocks_to_openai_messages "assistant" (.arr [imgBlock]) =
        [{ role := "assistant", content := "" }] ∧
      to_text imgBlock ≠ "" :=
  ⟨rfl, to_text_obj_ne_empty _⟩

/-- C7 (amended): a block that is none of the three recognised dict
shapes is coerced to text and included for user messages; for assistant
messages this only happens to non-dict blocks, while unrecognised dict
blocks are silently dropped. -/
theorem c7_amended (b : JVal) (h : recognizedShape b = false) :
    blocks_to_openai_messages "user" (.arr [b]) =
        [{ role := "user", content := to_text b }] ∧
      blocks_to_openai_messages "assistant" (.arr [b]) =
        (if isDict b then [{ role := "assistant", content := "" }]
         else [{ role := "assistant", content := to_text b }]) := by
  obtain ⟨hut, hum, hat, hac⟩ := unrec_parts b h
  constructor
  · have hscan : userScan [b] = ([to_text b], []) := by
      rw [userScan_decomp]
      simp [hut, hum]
    simp [blocks_to_openai_messages, hscan, intercalate_single]
  · have hscan : asstScan [b] =
        (if isDict b then ([], []) else ([to_text b], [])) := by
      rw [asstScan_decomp]
      by_cases hd : isDict b <;> simp [hd] at hat ⊢ <;> simp [hat, hac]
    by_cases hd : isDict b
    · simp [blocks_to_openai_messages, hscan, hd]
    · simp only [blocks_to_openai_messages, hscan, hd, if_false]
      by_cases he : to_text b = ""
      · simp [he, intercalate_nil]
      · simp [he, List.filter, intercalate_single]

/-- Witness for `c7_amended` at the unrecognised image block. -/
theorem c7_amended_witness :
    blocks_to_openai_messages "user" (.arr [imgBlock]) =
        [{ role := "user", content := to_text imgBlock }] ∧
      blocks_to_openai_messages "assistant" (.arr [imgBlock]) =
        [{ role := "assistant", content := "" }] := by
  have h := c7_amended imgBlock rfl
  exact ⟨h.1, by simpa using h.2⟩

/-! ## C3: user text precedes sibling tool-result messages -/

/-- C3: splitting a user block list yields every tool-result block as
its own tool-role message in encounter order, with a single user-text
message, holding the newline-joined accumulated text, placed before all
of them exactly when some non-tool-result text accumulated; a block
list with tool results only yields just the tool messages, and one with
neither yields a single empty user message. -/
theorem c3_user_text_before_tools (blocks : List JVal) :
    blocks_to_openai_messages "user" (.arr blocks) =
      (if (blocks.filterMap userTextPart).isEmpty then
        (if (blocks.filterMap userToolMsg).isEmpty then [{ role := "user", content := "" }]
         else blocks.filterMap userToolMsg)
       else
        { role := "user",
          content := String.intercalate "\n" (blocks.filterMap userTextPart) } ::
          blocks.filterMap userToolMsg) := by
  have hscan := userScan_decomp blocks
  by_cases h1 : (blocks.filterMap userTextPart).isEmpty <;>
    by_cases h2 : (blocks.filterMap userToolMsg).isEmpty <;>
      simp [blocks_to_openai_messages, hscan, h1, h2]

/-! ## C5: assistant tool-use only messages -/

theorem toolUse_parts (b : JVal) (h : isToolUseBlock b = true) :
    asstTextPart b = none ∧ asstToolCall b = some (mkTC b) := by
  cases b with
  | obj fields =>
    simp only [isToolUseBlock] at h
    rcases ht : oget fields "type" with _ | _ | _ | s | _ | _ <;> rw [ht] at h <;>
      simp at h
    subst h
    simp [asstTextPart, asstToolCall, ht, mkTC]
  | _ => simp [isToolUseBlock] at h

theorem asstToolCall_isSome (b : JVal) : (asstToolCall b).isSome = isToolUseBlock b := by
  cases b with
  | obj fields =>
    rcases ht : oget fields "type" with _ | _ | _ | s | _ | _ <;>
      simp [asstToolCall, isToolUseBlock, ht]
    by_cases h1 : s = "text" <;> by_cases h2 : s = "tool_use" <;> simp_all
  | _ => simp [asstToolCall, isToolUseBlock]

theorem filterMap_toolUse (blocks : List JVal)
    (hall : ∀ b ∈ blocks, isToolUseBlock b = true) :
    blocks.filterMap asstToolCall = blocks.map mkTC := by
  induction blocks with
  | nil => rfl
  | cons b bs ih =>
    simp only [List.filterMap_cons, (toolUse_parts b (hall b (by simp))).2, List.map_cons]
    exact congrArg _ (ih (fun x hx => hall x (by simp [hx])))

theorem filterMap_asstToolCall_isEmpty (blocks : List JVal) :
    (blocks.filterMap asstToolCall).isEmpty = !blocks.any isToolUseBlock := by
  induction blocks with
  | nil => rfl
  | cons b bs ih =>
    simp only [List.filterMap_cons, List.any_cons]
    rcases hc : asstToolCall b with _ | tc
    · have hb : isToolUseBlock b = false := by
        rw [← asstToolCall_isSome, hc]
        rfl
      simpa [hb] using ih
    · have hb : isToolUseBlock b = true := by
        rw [← asstToolCall_isSome, hc]
        rfl
      simp [hb]

/-- C5: an assistant block list holding only tool-use blocks translates
to exactly one assistant message with empty string content whose tool
calls match the blocks one for one in order (the `tool_calls` key being
absent when the list was empty); and in general the assistant message
carries a `tool_calls` key if and only if some tool-use block existed. -/
theorem c5_assistant_tool_calls (blocks : List JVal) :
    ((∀ b ∈ blocks, isToolUseBlock b = true) →
      blocks_to_openai_messages "assistant" (.arr blocks) =
        [{ role := "assistant", content := "",
           tool_calls := if blocks.isEmpty then none else some (blocks.map mkTC) }]) ∧
      ∀ m ∈ blocks_to_openai_messages "assistant" (.arr blocks),
        m.tool_calls.isSome = blocks.any isToolUseBlock := by
  have hscan := asstScan_decomp blocks
  constructor
  · intro hall
    have htext : blocks.filterMap asstTextPart = [] := by
      simp only [List.filterMap_eq_nil_iff]
      intro b hb
      exact (toolUse_parts b (hall b hb)).1
    have htool := filterMap_toolUse blocks hall
    rcases blocks with _ | ⟨b, bs⟩
    · rfl
    · simp [blocks_to_openai_messages, hscan, htext, htool]
  · intro m hm
    simp only [blocks_to_openai_messages, hscan, reduceIte, List.mem_singleton] at hm
    subst hm
    have hiff := filterMap_asstToolCall_isEmpty blocks
    by_cases he : (blocks.filterMap asstToolCall).isEmpty
    · rw [he] at hiff
      have h2 : blocks.any isToolUseBlock = false := by
        cases hany : blocks.any isToolUseBlock
        · rfl
        · rw [hany] at hiff
          simp at hiff
      simp [he, h2]
    · have he' : (blocks.filterMap asstToolCall).isEmpty = false := by
        cases hx : (blocks.filterMap asstToolCall).isEmpty
        · rfl
        · exact absurd hx he
      rw [he'] at hiff
      have hany : blocks.any isToolUseBlock = true := by
        cases hx : blocks.any isToolUseBlock
        · rw [hx] at hiff
          simp at hiff
        · rfl
      simp [he', hany]

/-- Witness for `c5_assistant_tool_calls` at a single tool-use block. -/
theorem c5_assistant_tool_calls_witness :
    blocks_to_openai_messages "assistant"
        (.arr [.obj [("type", .str "tool_use"), ("id", .str "t1"),
          ("name", .str "search"), ("input", .obj [("q", .str "x")])]]) =
      [{ role := "assistant", content := "",
         tool_calls := some [mkTC (.obj [("type", .str "tool_use"), ("id", .str "t1"),
           ("name", .str "search"), ("input", .obj [("q", .str "x")])])] }] := by
  have h := (c5_assistant_tool_calls
      [.obj [("type", .str "tool_use"), ("id", .str "t1"),
        ("name", .str "search"), ("input", .obj [("q", .str "x")])]]).1
    (by intro b hb; simp only [List.mem_singleton] at hb; subst hb; rfl)
  simpa using h

/-! ## C9: tool schema translation -/

/-- C9 counterexample: a tool whose `input_schema` is present but the
empty object gets the default schema as `parameters`, not its own empty
schema — the code keys on truthiness, not presence. -/
theorem c9_counterexample :
    canonical_to_openai_tools (.arr [.obj [("name", .str "t"), ("input_schema", .obj [])]]) =
        some [{ type := "function", name := .str "t",
                description := "No description provided", parameters := defaultSchema }] ∧
      defaultSchema ≠ .obj [] :=
  ⟨rfl, by simp [defaultSchema]⟩

theorem toolsToOpenai_eq (tools : List JVal) :
    toolsToOpenai tools = tools.mapM specToolSpec := by
  induction tools with
  | nil => rfl
  | cons t ts ih =>
    have ht : (match asObj? t with
        | none => none
        | some fields => toolToOpenai fields) = specToolSpec t := by
      cases t <;> rfl
    simp only [toolsToOpenai, List.mapM_cons, ih, ← ht]
    rcases ho : asObj? t with _ | fields
    · simp [ho]
    · rcases hto : toolToOpenai fields with _ | spec
      · simp [ho, hto]
      · rcases hts : ts.mapM specToolSpec with _ | rest <;> simp [ho, hto, hts]

/-- C9 (amended): tool translation preserves order and maps each tool
to a function spec whose `parameters` is the tool's `input_schema` when
that value is truthy (present and non-empty) and the default
`type`/`properties` object otherwise, and whose description falls back
to the literal `"No description provided"` when blank after trimming;
an absent or empty tool sequence gives an empty list, and the payload
omits its `tools` key exactly when the list is empty. -/
theorem c9_tools_translation (tools : List JVal) :
    canonical_to_openai_tools (.arr tools) = tools.mapM specToolSpec ∧
      canonical_to_openai_tools .null = some [] ∧
      payload_tools [] = none ∧
      ∀ l : List OpenAITool, l ≠ [] → payload_tools l = some l := by
  refine ⟨?_, rfl, rfl, ?_⟩
  · show canonical_to_openai_tools (.arr tools) = _
    unfold canonical_to_openai_tools
    rw [pyOr_arr_empty]
    exact toolsToOpenai_eq tools
  · intro l hl
    simp [payload_tools, hl]

/-- Witness for `c9_tools_translation` discharging its non-empty
hypothesis at a concrete one-element payload list. -/
theorem c9_tools_translation_witness :
    payload_tools [{ type := "function", name := .str "t",
                     description := "No description provided",
                     parameters := defaultSchema }] =
      some [{ type := "function", name := .str "t",
              description := "No description provided",
              parameters := defaultSchema }] :=
  (c9_tools_translation []).2.2.2 _ (by simp)

/-! ## C4: finish_reason mapping -/

theorem stopOf_norm (s : String) : stopOf (pyLower (pyStrip s)) = specStopReason s := by
  unfold stopOf specStopReason
  by_cases h1 : pyLower (pyStrip s) = "tool_calls" <;>
    by_cases h2 : pyLower (pyStrip s) = "function_call" <;>
      by_cases h3 : pyLower (pyStrip s) = "length" <;>
        simp [h1, h2, h3]

/-- C4: for a response whose choice carries any string (or no)
`finish_reason`, translation always succeeds and the stop reason is the
spec's table applied to the raw value after trimming and lowering:
`tool_calls` and `function_call` in any case map to `tool_use`,
`length` maps to `max_tokens`, and anything else (including the empty
string and an absent field) maps to `end_turn`. -/
theorem c4_finish_reason_mapping (fr : Option String) :
    (parse_openai_response (respWithFinish fr)).map CanonResponse.stop_reason =
      some (specStopReason (fr.getD "")) := by
  cases fr with
  | none =>
    show some (stopOf (pyLower (pyStrip ""))) = _
    rw [stopOf_norm]
    rfl
  | some s =>
    show (parse_openai_response (respWithFinish (some s))).map CanonResponse.stop_reason = _
    have hred : parse_openai_response (respWithFinish (some s)) =
        some { model := .str "", blocks := [], stop_reason := stopOf (pyLower (pyStrip s)),
               usage := { input_tokens := 0, output_tokens := 0 } } := by
      by_cases hs : s = ""
      · subst hs
        rfl
      · unfold parse_openai_response respWithFinish
        simp [asObj?, oget, pyOr, truthy, asStr?, tcsToBlocks, pyInt, hs]
    rw [hred]
    simpa using congrArg some (stopOf_norm s)

/-! ## C1: tool-use input decoding -/

/-- C1 counterexample: arguments `"42"` are valid JSON but not an
object; the decoded tool-use input is the bare number 42, so the input
is not always a JSON object. -/
theorem c1_counterexample :
    (parse_openai_response (respWithArgs (.str "42"))).map respInputs = some [.int 42] ∧
      isDict (.int 42) = false :=
  ⟨rfl, rfl⟩

/-- C1 (amended): translation never fails on any arguments value and
the emitted tool-use input follows the code's rule: a non-blank string
is JSON-parsed and the parsed value is used whatever its shape, with
the raw-wrapping object as fallback on parse failure; a dict passes
through; any other value gives the empty object.  The input can thus be
a non-object when the arguments string encodes a scalar or array. -/
theorem c1_tool_input_decoding (args : JVal) :
    (parse_openai_response (respWithArgs args)).map respInputs =
      some [match args with
            | .str s =>
              if pyStrip s ≠ "" then (loads s).getD (.obj [("_raw", .str s)])
              else .obj []
            | .obj fs => .obj fs
            | _ => .obj []] := by
  have hred : parse_openai_response (respWithArgs args) =
      some { model := .str "", blocks := [.tool_use (.str "") (.str "") (decodeArgs args)],
             stop_reason := "end_turn",
             usage := { input_tokens := 0, output_tokens := 0 } } := by
    unfold parse_openai_response respWithArgs
    simp [asObj?, oget, pyOr, truthy, asStr?, tcsToBlocks, tcToBlock, pyInt]
    rfl
  rw [hred]
  simp only [Option.map_some']
  congr 1
  simp only [respInputs, List.filterMap]
  cases args with
  | str s =>
    simp only [decodeArgs]
    by_cases hb : pyStrip s ≠ ""
    · simp only [hb, if_true, if_pos hb]
      cases loads s <;> rfl
    · simp only [if_neg hb]
  | _ => rfl

/-! ## C6: malformed arguments are absorbed locally -/

/-- C6: when a tool call's arguments string is non-blank and not valid
JSON, translation still succeeds, the tool-use block's input is the
raw-wrapped object, and the rest of the response — leading text block,
stop reason, usage, model — is produced normally. -/
theorem c6_malformed_arguments (s : String) (h1 : pyStrip s ≠ "") (h2 : loads s = none) :
    parse_openai_response (respFull s) =
      some { model := .str "m",
             blocks := [.text "hello",
               .tool_use (.str "call1") (.str "f") (.obj [("_raw", .str s)])],
             stop_reason := "tool_use",
             usage := { input_tokens := 3, output_tokens := 5 } } := by
  unfold parse_openai_response respFull
  simp [asObj?, oget, pyOr, truthy, asStr?, tcsToBlocks, tcToBlock, pyInt,
    decodeArgs, h1, h2]
  rfl

/-- Witness for `c6_malformed_arguments` at the spec's example
`"not json"`. -/
theorem c6_malformed_arguments_witness :
    parse_openai_response (respFull "not json") =
      some { model := .str "m",
             blocks := [.text "hello",
               .tool_use (.str "call1") (.str "f") (.obj [("_raw", .str "not json")])],
             stop_reason := "tool_use",
             usage := { input_tokens := 3, output_tokens := 5 } } :=
  c6_malformed_arguments "not json" (by decide) rfl

/-! ## Round-trip lemmas: numerals -/

theorem digitChar_isDigit (n : Nat) (h : n < 10) : (digitChar n).isDigit = true := by
  interval_cases n <;> decide

theorem digitChar_toNat (n : Nat) (h : n < 10) : (digitChar n).toNat - 48 = n := by
  interval_cases n <;> decide

theorem digitChar_ne_zero (n : Nat) (h : n < 10) (h0 : 0 < n) : digitChar n ≠ '0' := by
  interval_cases n <;> decide

theorem hexVal_hexDigit (n : Nat) (h : n < 16) : hexVal (hexDigit n) = some n := by
  interval_cases n <;> decide

theorem natDigitsAux_all_digits (fuel : Nat) :
    ∀ n, n < fuel → ∀ c ∈ natDigitsAux fuel n, c.isDigit = true := by
  induction fuel with
  | zero => intro n h; omega
  | succ fuel ih =>
    intro n h c hc
    rw [natDigitsAux] at hc
    by_cases h10 : n < 10
    · rw [if_pos h10] at hc
      simp at hc
      subst hc
      exact digitChar_isDigit n h10
    · rw [if_neg h10] at hc
      rcases List.mem_append.mp hc with hc | hc
      · exact ih (n / 10) (by omega) c hc
      · simp at hc
        subst hc
        exact digitChar_isDigit (n % 10) (by omega)

theorem natDigitsAux_ne_nil (fuel n : Nat) (h : n < fuel) : natDigitsAux fuel n ≠ [] := by
  cases fuel with
  | zero => omega
  | succ fuel =>
    rw [natDigitsAux]
    by_cases h10 : n < 10 <;> simp [h10]

theorem digitsToNat_append (a b : List Char) (acc : Nat) :
    digitsToNat (a ++ b) acc = digitsToNat b (digitsToNat a acc) := by
  induction a generalizing acc with
  | nil => rfl
  | cons c cs ih => simp [digitsToNat, ih]

theorem digitsToNat_natDigitsAux (fuel : Nat) :
    ∀ n acc, n < fuel →
      digitsToNat (natDigitsAux fuel n) acc =
        acc * 10 ^ (natDigitsAux fuel n).length + n := by
  induction fuel with
  | zero => intro n acc h; omega
  | succ fuel ih =>
    intro n acc h
    rw [natDigitsAux]
    by_cases h10 : n < 10
    · rw [if_pos h10]
      simp [digitsToNat, digitChar_toNat n h10]
    · rw [if_neg h10]
      rw [digitsToNat_append, ih (n / 10) acc (by omega)]
      simp only [digitsToNat, List.length_append, List.length_cons, List.length_nil]
      rw [digitChar_toNat (n % 10) (by omega)]
      rw [pow_succ]
      have : n / 10 * 10 + n % 10 = n := by omega
      ring_nf
      omega

theorem natDigitsAux_head_ne_zero (fuel : Nat) :
    ∀ n, n < fuel → 0 < n →
      ∃ c t, natDigitsAux fuel n = c :: t ∧ c.isDigit = true ∧ c ≠ '0' := by
  induction fuel with
  | zero => intro n h; omega
  | succ fuel ih =>
    intro n h h0
    rw [natDigitsAux]
    by_cases h10 : n < 10
    · rw [if_pos h10]
      exact ⟨_, _, rfl, digitChar_isDigit n h10, digitChar_ne_zero n h10 h0⟩
    · rw [if_neg h10]
      obtain ⟨c, t, hct, hd, hz⟩ := ih (n / 10) (by omega) (by omega)
      exact ⟨c, t ++ [digitChar (n % 10)], by rw [hct]; rfl, hd, hz⟩

theorem takeDigits_append (ds rest : List Char) (hds : ∀ c ∈ ds, c.isDigit = true)
    (hrest : noDigitHead rest) : takeDigits (ds ++ rest) = (ds, rest) := by
  unfold takeDigits
  induction ds with
  | nil =>
    simp only [List.nil_append]
    cases rest with
    | nil => rfl
    | cons c cs =>
      simp only [noDigitHead] at hrest
      simp [List.takeWhile, List.dropWhile, hrest]
  | cons d ds ih =>
    have hd : d.isDigit = true := hds d (by simp)
    have := ih (fun c hc => hds c (by simp [hc]))
    simp only [List.cons_append, List.takeWhile_cons, List.dropWhile_cons, hd, if_true]
    simp only [Prod.mk.injEq] at this ⊢
    exact ⟨by rw [this.1], this.2⟩

theorem pUNat_natDigits (n : Nat) (rest : List Char) (hrest : noDigitHead rest) :
    pUNat (natDigits n ++ rest) = some (n, rest) := by
  by_cases h0 : n = 0
  · subst h0
    rfl
  · have hlt : n < n + 1 := Nat.lt_succ_self n
    obtain ⟨c, t, hct, hdig, hz⟩ :=
      natDigitsAux_head_ne_zero (n + 1) n hlt (by omega)
    have hct' : natDigits n = c :: t := hct
    unfold pUNat
    rw [hct']
    have hall : ∀ x ∈ natDigits n, x.isDigit = true :=
      natDigitsAux_all_digits (n + 1) n hlt
    rw [hct'] at hall
    have htake := takeDigits_append (c :: t) rest hall hrest
    split
    · rename_i heq
      exact absurd (List.cons.inj heq).1 hz
    · simp only [List.cons_append] at htake ⊢
      simp only [htake]
      have hval : digitsToNat (natDigits n) 0 =
          0 * 10 ^ (natDigits n).length + n :=
        digitsToNat_natDigitsAux (n + 1) n 0 hlt
      rw [hct'] at hval
      simp only [Nat.zero_mul, Nat.zero_add] at hval
      have hne : ¬(c :: t : List Char).isEmpty := by simp
      simp [hne, hval]

theorem pInt_dumpInt (i : Int) (rest : List Char) (hrest : noDigitHead rest) :
    pInt (dumpInt i ++ rest) = some (i, rest) := by
  cases i with
  | ofNat m =>
    have hm : m < m + 1 := Nat.lt_succ_self m
    obtain ⟨c, t, hct, hdig⟩ :
        ∃ c t, natDigits m = c :: t ∧ c.isDigit = true := by
      rcases hd : natDigits m with _ | ⟨c, t⟩
      · exact absurd hd (natDigitsAux_ne_nil (m + 1) m hm)
      · refine ⟨c, t, rfl, natDigitsAux_all_digits (m + 1) m hm c ?_⟩
        rw [show natDigitsAux (m + 1) m = c :: t from hd]
        simp
    have hc : c ≠ '-' := by
      intro hcontra
      rw [hcontra] at hdig
      simp [Char.isDigit] at hdig
    show pInt (natDigits m ++ rest) = some ((m : Int), rest)
    rw [hct]
    unfold pInt
    split
    · rename_i heq
      exact absurd (List.cons.inj heq).1 hc
    · have hp := pUNat_natDigits m rest hrest
      rw [hct] at hp
      simp only [List.cons_append] at hp ⊢
      rw [hp]
      rfl
  | negSucc m =>
    show pInt ('-' :: (natDigits (m + 1) ++ rest)) = some (.negSucc m, rest)
    show (pUNat (natDigits (m + 1) ++ rest)).map (fun p => (-(p.1 : Int), p.2)) =
      some (.negSucc m, rest)
    rw [pUNat_natDigits (m + 1) rest hrest]
    simp only [Option.map_some']
    have hneg : -((m + 1 : Nat) : Int) = Int.negSucc m := by
      rw [Int.negSucc_eq]
      push_cast
      ring
    rw [hneg]

/-! ## Round-trip lemmas: strings -/

theorem pString_escList (cs : List Char) (rest : List Char) :
    pString (escList cs ++ '"' :: rest) = some (cs, rest) := by
  induction cs with
  | nil =>
    show pString ('"' :: rest) = some ([], rest)
    rw [pString.eq_def]
    exact rfl
  | cons c cs ih =>
    show pString ((escChar c ++ escList cs) ++ '"' :: rest) = some (c :: cs, rest)
    rw [List.append_assoc]
    unfold escChar
    split_ifs with h1 h2 h3 h4 h5 h6 h7 h8
    · subst h1
      rw [pString.eq_def]
      show pcons '"' (pString (escList cs ++ '"' :: rest)) = _
      rw [ih]
      exact rfl
    · subst h2
      rw [pString.eq_def]
      show pcons '\\' (pString (escList cs ++ '"' :: rest)) = _
      rw [ih]
      exact rfl
    · subst h3
      rw [pString.eq_def]
      show pcons '\n' (pString (escList cs ++ '"' :: rest)) = _
      rw [ih]
      exact rfl
    · subst h4
      rw [pString.eq_def]
      show pcons '\r' (pString (escList cs ++ '"' :: rest)) = _
      rw [ih]
      exact rfl
    · subst h5
      rw [pString.eq_def]
      show pcons '\t' (pString (escList cs ++ '"' :: rest)) = _
      rw [ih]
      exact rfl
    · subst h6
      rw [pString.eq_def]
      show pcons '\x08' (pString (escList cs ++ '"' :: rest)) = _
      rw [ih]
      exact rfl
    · subst h7
      rw [pString.eq_def]
      show pcons '\x0c' (pString (escList cs ++ '"' :: rest)) = _
      rw [ih]
      exact rfl
    · rw [pString.eq_def]
      show (match hexVal '0', hexVal '0',
          hexVal (hexDigit (c.toNat / 16)), hexVal (hexDigit (c.toNat % 16)) with
        | some a, some b, some c2, some d =>
          pcons (Char.ofNat (((a * 16 + b) * 16 + c2) * 16 + d))
            (pString (escList cs ++ '"' :: rest))
        | _, _, _, _ => none) = some (c :: cs, rest)
      rw [hexVal_hexDigit (c.toNat / 16) (by omega), hexVal_hexDigit (c.toNat % 16) (by omega)]
      show pcons (Char.ofNat (((0 * 16 + 0) * 16 + c.toNat / 16) * 16 + c.toNat % 16))
          (pString (escList cs ++ '"' :: rest)) = some (c :: cs, rest)
      rw [show ((0 * 16 + 0) * 16 + c.toNat / 16) * 16 + c.toNat % 16 = c.toNat by omega]
      rw [Char.ofNat_toNat, ih]
      exact rfl
    · rw [List.cons_append, pString.eq_def]
      simp only []
      rw [if_neg h1, if_neg h2, if_neg h8, List.nil_append, ih]
      exact rfl

/-! ## Round-trip lemmas: values -/

theorem skipWs_cons_nonws (c : Char) (l : List Char) (h : isJsonWs c = false) :
    skipWs (c :: l) = c :: l := by
  rw [skipWs, h]
  exact rfl

theorem skipWs_space (l : List Char) : skipWs (' ' :: l) = skipWs l := by
  rw [skipWs]
  exact rfl

theorem pVal_congr (fuel : Nat) (cs₁ cs₂ : List Char) (h : skipWs cs₁ = skipWs cs₂) :
    pVal fuel cs₁ = pVal fuel cs₂ := by
  cases fuel with
  | zero => rfl
  | succ fuel =>
    show (match skipWs cs₁ with
      | [] => none
      | c :: cs' => _) = _
    rw [h]
    exact rfl

theorem pVal_space (fuel : Nat) (cs : List Char) : pVal fuel (' ' :: cs) = pVal fuel cs :=
  pVal_congr fuel _ _ (skipWs_space cs)

theorem pMemberF_congr (pv : List Char → Option (JVal × List Char)) (cs₁ cs₂ : List Char)
    (h : skipWs cs₁ = skipWs cs₂) : pMemberF pv cs₁ = pMemberF pv cs₂ := by
  unfold pMemberF
  rw [h]

theorem joinSep_cons {α : Type} (sep : List Char) (f : α → List Char) (x : α) (xs : List α) :
    joinSep sep f (x :: xs) = f x ++ ((xs.map (fun y => sep ++ f y)).flatten) := by
  induction xs generalizing x with
  | nil => simp [joinSep]
  | cons y ys ih =>
    rw [joinSep, ih y]
    simp

theorem joinSep_length_ge {α : Type} (sep : List Char) (f : α → List Char) (xs : List α)
    (x : α) (hx : x ∈ xs) : (f x).length ≤ (joinSep sep f xs).length := by
  induction xs with
  | nil => simp at hx
  | cons y ys ih =>
    rcases List.mem_cons.mp hx with rfl | hx
    · rw [joinSep_cons]
      simp
    · rcases ys with _ | ⟨z, zs⟩
      · simp at hx
      · rw [joinSep]
        have := ih hx
        simp only [List.length_append]
        omega

theorem joinSep_length_count {α : Type} (sep : List Char) (f : α → List Char) :
    ∀ xs : List α, (∀ y ∈ xs, 1 ≤ (f y).length) → xs.length ≤ (joinSep sep f xs).length := by
  intro xs
  induction xs with
  | nil => intro; simp [joinSep]
  | cons x ys ih =>
    intro h
    rcases ys with _ | ⟨z, zs⟩
    · simpa [joinSep] using h x (by simp)
    · rw [joinSep]
      have h1 := h x (by simp)
      have h2 := ih (fun y hy => h y (by simp [List.mem_cons.mp hy]))
      simp only [List.length_cons, List.length_append] at h2 ⊢
      omega

theorem pVal_succ (fuel : Nat) (cs : List Char) :
    pVal (fuel + 1) cs =
      (match skipWs cs with
        | [] => none
        | c :: cs' =>
          if c = '\x7b' then
            match skipWs cs' with
            | '\x7d' :: rest => some (.obj [], rest)
            | _ =>
              match pMemberF (pVal fuel) cs' with
              | none => none
              | some (m, r) =>
                match pObjRest (pMemberF (pVal fuel)) fuel r with
                | none => none
                | some (ms, r') => some (.obj (objFoldl [] (m :: ms)), r')
          else if c = '[' then
            match skipWs cs' with
            | ']' :: rest => some (.arr [], rest)
            | _ =>
              match pVal fuel cs' with
              | none => none
              | some (v, r) =>
                match pListRest (pVal fuel) fuel r with
                | none => none
                | some (vs, r') => some (.arr (v :: vs), r')
          else if c = '"' then
            match pString cs' with
            | none => none
            | some (s, r) => some (.str (String.mk s), r)
          else if c = 't' then
            match dropLit (toL "rue") cs' with
            | some r => some (.bool true, r)
            | none => none
          else if c = 'f' then
            match dropLit (toL "alse") cs' with
            | some r => some (.bool false, r)
            | none => none
          else if c = 'n' then
            match dropLit (toL "ull") cs' with
            | some r => some (.null, r)
            | none => none
          else if c = '-' ∨ c.isDigit then
            match pInt (c :: cs') with
            | none => none
            | some (n, r) => some (.int n, r)
          else none) := rfl

theorem pListRest_succ (pv : List Char → Option (JVal × List Char)) (g : Nat)
    (cs : List Char) :
    pListRest pv (g + 1) cs =
      (match skipWs cs with
        | ']' :: rest => some ([], rest)
        | ',' :: cs' =>
          match pv cs' with
          | none => none
          | some (v, r) =>
            match pListRest pv g r with
            | none => none
            | some (vs, r') => some (v :: vs, r')
        | _ => none) := rfl

theorem pObjRest_succ (pm : List Char → Option ((String × JVal) × List Char)) (g : Nat)
    (cs : List Char) :
    pObjRest pm (g + 1) cs =
      (match skipWs cs with
        | '\x7d' :: rest => some ([], rest)
        | ',' :: cs' =>
          match pm cs' with
          | none => none
          | some (m, r) =>
            match pObjRest pm g r with
            | none => none
            | some (ms, r') => some (m :: ms, r')
        | _ => none) := rfl

theorem isDigit_facts (c : Char) (h : c.isDigit = true) :
    isJsonWs c = false ∧ c ≠ '\x7b' ∧ c ≠ '[' ∧ c ≠ '"' ∧ c ≠ 't' ∧ c ≠ 'f' ∧
      c ≠ 'n' ∧ c ≠ ']' ∧ c ≠ '\x7d' ∧ c ≠ ',' := by
  refine ⟨?_, ?_, ?_, ?_, ?_, ?_, ?_, ?_, ?_, ?_⟩
  · cases hc : isJsonWs c
    · rfl
    · exfalso
      simp only [isJsonWs, Bool.or_eq_true, decide_eq_true_eq] at hc
      rcases hc with ((hc | hc) | hc) | hc <;> subst hc <;> exact absurd h (by decide)
  all_goals
    intro hc
    subst hc
    exact absurd h (by decide)

theorem dumpVal_head (v : JVal) (f : Nat) (h : jsize v ≤ f) :
    ∃ c t, dumpVal f v = c :: t ∧ isJsonWs c = false ∧ c ≠ ']' ∧ c ≠ '\x7d' ∧ c ≠ ',' := by
  cases f with
  | zero =>
    have := jsize_ne_zero v
    omega
  | succ f =>
    cases v with
    | null => exact ⟨'n', _, rfl, by decide, by decide, by decide, by decide⟩
    | bool b =>
      cases b
      · exact ⟨'f', _, rfl, by decide, by decide, by decide, by decide⟩
      · exact ⟨'t', _, rfl, by decide, by decide, by decide, by decide⟩
    | int n =>
      cases n with
      | ofNat m =>
        have hm : m < m + 1 := Nat.lt_succ_self m
        rcases hd : natDigits m with _ | ⟨c, t⟩
        · exact absurd hd (natDigitsAux_ne_nil (m + 1) m hm)
        · have hdig : c.isDigit = true := by
            refine natDigitsAux_all_digits (m + 1) m hm c ?_
            rw [show natDigitsAux (m + 1) m = c :: t from hd]
            simp
          obtain ⟨hws, _, _, _, _, _, _, hrb, hcb, hcm⟩ := isDigit_facts c hdig
          refine ⟨c, t, ?_, hws, hrb, hcb, hcm⟩
          show natDigits m = c :: t
          exact hd
      | negSucc m =>
        exact ⟨'-', _, rfl, by decide, by decide, by decide, by decide⟩
    | str s => exact ⟨'"', _, rfl, by decide, by decide, by decide, by decide⟩
    | arr xs => exact ⟨'[', _, rfl, by decide, by decide, by decide, by decide⟩
    | obj ms => exact ⟨'\x7b', _, rfl, by decide, by decide, by decide, by decide⟩

theorem dumpVal_length_pos (v : JVal) (f : Nat) (h : jsize v ≤ f) :
    1 ≤ (dumpVal f v).length := by
  obtain ⟨c, t, hct, _⟩ := dumpVal_head v f h
  rw [hct]
  simp

theorem objInsert_of_notMem (acc : List (String × JVal)) (k : String) (v : JVal)
    (h : k ∉ acc.map Prod.fst) : objInsert acc k v = acc ++ [(k, v)] := by
  induction acc with
  | nil => rfl
  | cons p rest ih =>
    obtain ⟨k', v'⟩ := p
    simp only [List.map_cons, List.mem_cons] at h
    push_neg at h
    rw [objInsert, if_neg (fun hc => h.1 hc.symm)]
    rw [ih h.2]
    rfl

theorem objFoldl_of_nodup (ps : List (String × JVal)) :
    ∀ acc : List (String × JVal), ((acc ++ ps).map Prod.fst).Nodup →
      objFoldl acc ps = acc ++ ps := by
  induction ps with
  | nil =>
    intro acc h
    show acc = acc ++ []
    simp
  | cons p ps ih =>
    intro acc h
    obtain ⟨k, v⟩ := p
    have hnotmem : k ∉ acc.map Prod.fst := by
      simp only [List.map_append, List.nodup_append] at h
      intro hc
      exact h.2.2 hc (by simp)
    show objFoldl (objInsert acc k v) ps = acc ++ (k, v) :: ps
    rw [objInsert_of_notMem acc k v hnotmem]
    rw [ih (acc ++ [(k, v)]) (by simpa using h)]
    simp

theorem noDigitHead_cons (c : Char) (l : List Char) (h : c.isDigit = false) :
    noDigitHead (c :: l) := h

theorem pListRest_rt (pv : List Char → Option (JVal × List Char)) (f : Nat)
    (xs : List JVal) :
    ∀ (g : Nat) (rest : List Char),
      (∀ x ∈ xs, ∀ r' : List Char, noDigitHead r' →
        pv (' ' :: (dumpVal f x ++ r')) = some (x, r')) →
      xs.length < g → noDigitHead rest →
      pListRest pv g ((xs.map (fun y => toL ", " ++ dumpVal f y)).flatten ++ ']' :: rest) =
        some (xs, rest) := by
  induction xs with
  | nil =>
    intro g rest hpv hg hrest
    cases g with
    | zero => omega
    | succ g =>
      rw [show ((([] : List JVal).map (fun y => toL ", " ++ dumpVal f y)).flatten
        ++ ']' :: rest) = ']' :: rest by simp]
      rw [pListRest_succ, skipWs_cons_nonws ']' rest (by decide)]
      exact rfl
  | cons x xs ih =>
    intro g rest hpv hg hrest
    cases g with
    | zero => simp at hg
    | succ g =>
      have hshape : (((x :: xs).map (fun y => toL ", " ++ dumpVal f y)).flatten
          ++ ']' :: rest) =
          ',' :: ' ' :: (dumpVal f x ++
            ((xs.map (fun y => toL ", " ++ dumpVal f y)).flatten ++ ']' :: rest)) := by
        simp [toL]
      rw [hshape, pListRest_succ, skipWs_cons_nonws ',' _ (by decide)]
      simp only []
      have hnd : noDigitHead ((xs.map (fun y => toL ", " ++ dumpVal f y)).flatten
          ++ ']' :: rest) := by
        cases xs with
        | nil => exact noDigitHead_cons _ _ (by decide)
        | cons y ys =>
          rw [show (((y :: ys).map (fun z => toL ", " ++ dumpVal f z)).flatten
            ++ ']' :: rest) =
            ',' :: (' ' :: (dumpVal f y ++
              ((ys.map (fun z => toL ", " ++ dumpVal f z)).flatten ++ ']' :: rest))) by
              simp [toL]]
          exact noDigitHead_cons _ _ (by decide)
      rw [hpv x (by simp) _ hnd]
      simp only []
      rw [ih g rest (fun y hy r' hr' => hpv y (by simp [hy]) r' hr')
        (by simp at hg; omega) hrest]

theorem pMemberF_rt (pv : List Char → Option (JVal × List Char)) (f : Nat)
    (k : String) (v : JVal) (rest : List Char)
    (hpv : ∀ r' : List Char, noDigitHead r' →
      pv (' ' :: (dumpVal f v ++ r')) = some (v, r'))
    (hrest : noDigitHead rest) :
    pMemberF pv (('"' :: escList k.toList ++ '"' :: ':' :: ' ' :: dumpVal f v) ++ rest) =
      some ((k, v), rest) := by
  have hshape : (('"' :: escList k.toList ++ '"' :: ':' :: ' ' :: dumpVal f v) ++ rest) =
      '"' :: (escList k.toList ++ '"' :: (':' :: (' ' :: (dumpVal f v ++ rest)))) := by
    simp
  rw [hshape]
  unfold pMemberF
  rw [skipWs_cons_nonws '"' _ (by decide)]
  simp only []
  rw [pString_escList k.toList (':' :: (' ' :: (dumpVal f v ++ rest)))]
  simp only []
  rw [skipWs_cons_nonws ':' _ (by decide)]
  simp only []
  rw [hpv rest hrest]
  exact rfl

theorem pObjRest_rt (pm : List Char → Option ((String × JVal) × List Char)) (f : Nat)
    (ms : List (String × JVal)) :
    ∀ (g : Nat) (rest : List Char),
      (∀ m ∈ ms, ∀ r' : List Char, noDigitHead r' →
        pm (' ' :: (('"' :: escList m.1.toList ++ '"' :: ':' :: ' ' :: dumpVal f m.2) ++ r')) =
          some (m, r')) →
      ms.length < g → noDigitHead rest →
      pObjRest pm g
          ((ms.map (fun m => toL ", " ++
            ('"' :: escList m.1.toList ++ '"' :: ':' :: ' ' :: dumpVal f m.2))).flatten ++
            '\x7d' :: rest) =
        some (ms, rest) := by
  induction ms with
  | nil =>
    intro g rest hpm hg hrest
    cases g with
    | zero => omega
    | succ g =>
      rw [show ((([] : List (String × JVal)).map (fun m => toL ", " ++
        ('"' :: escList m.1.toList ++ '"' :: ':' :: ' ' :: dumpVal f m.2))).flatten
        ++ '\x7d' :: rest) = '\x7d' :: rest by simp]
      rw [pObjRest_succ, skipWs_cons_nonws '\x7d' rest (by decide)]
      exact rfl
  | cons m ms ih =>
    intro g rest hpm hg hrest
    cases g with
    | zero => simp at hg
    | succ g =>
      have hshape : (((m :: ms).map (fun m => toL ", " ++
          ('"' :: escList m.1.toList ++ '"' :: ':' :: ' ' :: dumpVal f m.2))).flatten
          ++ '\x7d' :: rest) =
          ',' :: (' ' :: (('"' :: escList m.1.toList ++ '"' :: ':' :: ' ' :: dumpVal f m.2) ++
            ((ms.map (fun m => toL ", " ++
              ('"' :: escList m.1.toList ++ '"' :: ':' :: ' ' :: dumpVal f m.2))).flatten ++
              '\x7d' :: rest))) := by
        simp [toL]
      rw [hshape, pObjRest_succ, skipWs_cons_nonws ',' _ (by decide)]
      simp only []
      have hnd : noDigitHead ((ms.map (fun m => toL ", " ++
          ('"' :: escList m.1.toList ++ '"' :: ':' :: ' ' :: dumpVal f m.2))).flatten ++
          '\x7d' :: rest) := by
        cases ms with
        | nil => exact noDigitHead_cons _ _ (by decide)
        | cons m' ms' =>
          rw [show (((m' :: ms').map (fun m => toL ", " ++
            ('"' :: escList m.1.toList ++ '"' :: ':' :: ' ' :: dumpVal f m.2))).flatten
            ++ '\x7d' :: rest) =
            ',' :: (' ' :: (('"' :: escList m'.1.toList ++ '"' :: ':' :: ' ' ::
              dumpVal f m'.2) ++
              ((ms'.map (fun m => toL ", " ++
                ('"' :: escList m.1.toList ++ '"' :: ':' :: ' ' :: dumpVal f m.2))).flatten ++
                '\x7d' :: rest))) by simp [toL]]
          exact noDigitHead_cons _ _ (by decide)
      rw [hpm m (by simp) _ hnd]
      simp only []
      rw [ih g rest (fun m' hm' r' hr' => hpm m' (by simp [hm']) r' hr')
        (by simp at hg; omega) hrest]

theorem jsize_arr_eq (xs : List JVal) : jsize (.arr xs) = 1 + (xs.map jsize).sum := by
  rw [jsize]
  congr 1
  simp

theorem jsize_obj_eq (ms : List (String × JVal)) :
    jsize (.obj ms) = 1 + (ms.map (fun m => jsize m.2)).sum := by
  rw [jsize]
  congr 1
  rw [List.attach_map_coe ms (fun p => jsize p.2)]

theorem jsize_lt_arr (xs : List JVal) (x : JVal) (hx : x ∈ xs) :
    jsize x < jsize (.arr xs) := by
  rw [jsize_arr_eq]
  have : jsize x ≤ (xs.map jsize).sum :=
    List.single_le_sum (fun _ _ => Nat.zero_le _) _ (List.mem_map_of_mem jsize hx)
  omega

theorem jsize_lt_obj (ms : List (String × JVal)) (m : String × JVal) (hm : m ∈ ms) :
    jsize m.2 < jsize (.obj ms) := by
  rw [jsize_obj_eq]
  have : jsize m.2 ≤ (ms.map (fun m => jsize m.2)).sum :=
    List.single_le_sum (fun _ _ => Nat.zero_le _) _ (List.mem_map_of_mem _ hm)
  omega

theorem arr_body_skip_close (g : Nat) (c : Char) (t : List Char) (hc : c ≠ ']')
    (hws : isJsonWs c = false) :
    (match skipWs (c :: t) with
      | ']' :: rest => some (JVal.arr [], rest)
      | _ =>
        match pVal g (c :: t) with
        | none => none
        | some (v, r) =>
          match pListRest (pVal g) g r with
          | none => none
          | some (vs, r') => some (JVal.arr (v :: vs), r')) =
      (match pVal g (c :: t) with
        | none => none
        | some (v, r) =>
          match pListRest (pVal g) g r with
          | none => none
          | some (vs, r') => some (JVal.arr (v :: vs), r')) := by
  rw [skipWs_cons_nonws c t hws]
  split
  · rename_i heq
    exact absurd (List.cons.inj heq).1 hc
  · rfl

theorem obj_body_skip_close (g : Nat) (c : Char) (t : List Char) (hc : c ≠ '\x7d')
    (hws : isJsonWs c = false) :
    (match skipWs (c :: t) with
      | '\x7d' :: rest => some (JVal.obj [], rest)
      | _ =>
        match pMemberF (pVal g) (c :: t) with
        | none => none
        | some (m, r) =>
          match pObjRest (pMemberF (pVal g)) g r with
          | none => none
          | some (ms, r') => some (JVal.obj (objFoldl [] (m :: ms)), r')) =
      (match pMemberF (pVal g) (c :: t) with
        | none => none
        | some (m, r) =>
          match pObjRest (pMemberF (pVal g)) g r with
          | none => none
          | some (ms, r') => some (JVal.obj (objFoldl [] (m :: ms)), r')) := by
  rw [skipWs_cons_nonws c t hws]
  split
  · rename_i heq
    exact absurd (List.cons.inj heq).1 hc
  · rfl

theorem pVal_succ_num (fuel : Nat) (c : Char) (t : List Char)
    (hd : c = '-' ∨ c.isDigit = true) :
    pVal (fuel + 1) (c :: t) =
      (match pInt (c :: t) with
        | none => none
        | some (n, r) => some (JVal.int n, r)) := by
  have hws : isJsonWs c = false := by
    rcases hd with rfl | h
    · decide
    · exact (isDigit_facts c h).1
  have h1 : c ≠ '\x7b' := by
    rcases hd with rfl | h
    · decide
    · exact (isDigit_facts c h).2.1
  have h2 : c ≠ '[' := by
    rcases hd with rfl | h
    · decide
    · exact (isDigit_facts c h).2.2.1
  have h3 : c ≠ '"' := by
    rcases hd with rfl | h
    · decide
    · exact (isDigit_facts c h).2.2.2.1
  have h4 : c ≠ 't' := by
    rcases hd with rfl | h
    · decide
    · exact (isDigit_facts c h).2.2.2.2.1
  have h5 : c ≠ 'f' := by
    rcases hd with rfl | h
    · decide
    · exact (isDigit_facts c h).2.2.2.2.2.1
  have h6 : c ≠ 'n' := by
    rcases hd with rfl | h
    · decide
    · exact (isDigit_facts c h).2.2.2.2.2.2.1
  rw [pVal_succ, skipWs_cons_nonws c t hws]
  simp only []
  rw [if_neg h1, if_neg h2, if_neg h3, if_neg h4, if_neg h5, if_neg h6, if_pos hd]

theorem pVal_succ_str (fuel : Nat) (t : List Char) :
    pVal (fuel + 1) ('"' :: t) =
      (match pString t with
        | none => none
        | some (s, r) => some (JVal.str (String.mk s), r)) := rfl

theorem pVal_succ_arr (fuel : Nat) (t : List Char) :
    pVal (fuel + 1) ('[' :: t) =
      (match skipWs t with
        | ']' :: rest => some (JVal.arr [], rest)
        | _ =>
          match pVal fuel t with
          | none => none
          | some (v, r) =>
            match pListRest (pVal fuel) fuel r with
            | none => none
            | some (vs, r') => some (JVal.arr (v :: vs), r')) := rfl

theorem pVal_succ_obj (fuel : Nat) (t : List Char) :
    pVal (fuel + 1) ('\x7b' :: t) =
      (match skipWs t with
        | '\x7d' :: rest => some (JVal.obj [], rest)
        | _ =>
          match pMemberF (pVal fuel) t with
          | none => none
          | some (m, r) =>
            match pObjRest (pMemberF (pVal fuel)) fuel r with
            | none => none
            | some (ms, r') => some (JVal.obj (objFoldl [] (m :: ms)), r')) := rfl

theorem pVal_dump_rt (v : JVal) (hwf : Wf v) :
    ∀ (f fuel : Nat) (rest : List Char), jsize v ≤ f →
      (dumpVal f v).length < fuel → noDigitHead rest →
      pVal fuel (dumpVal f v ++ rest) = some (v, rest) := by
  induction hwf with
  | null =>
    intro f fuel rest hf hfuel hrest
    rcases f with _ | f
    · simp [jsize] at hf
    rcases fuel with _ | g
    · omega
    exact rfl
  | bool b =>
    intro f fuel rest hf hfuel hrest
    rcases f with _ | f
    · simp [jsize] at hf
    rcases fuel with _ | g
    · omega
    cases b <;> exact rfl
  | int n =>
    intro f fuel rest hf hfuel hrest
    rcases f with _ | f
    · simp [jsize] at hf
    rcases fuel with _ | g
    · omega
    show pVal (g + 1) (dumpInt n ++ rest) = some (.int n, rest)
    cases n with
    | ofNat m =>
      have hm : m < m + 1 := Nat.lt_succ_self m
      rcases hd : natDigits m with _ | ⟨c, t⟩
      · exact absurd hd (natDigitsAux_ne_nil (m + 1) m hm)
      have hdig : c.isDigit = true := by
        refine natDigitsAux_all_digits (m + 1) m hm c ?_
        rw [show natDigitsAux (m + 1) m = c :: t from hd]
        simp
      have hshape : (dumpInt (Int.ofNat m) ++ rest) = c :: (t ++ rest) := by
        show natDigits m ++ rest = _
        rw [hd]
        rfl
      rw [hshape, pVal_succ_num g c (t ++ rest) (Or.inr hdig), ← hshape,
        pInt_dumpInt _ rest hrest]
    | negSucc m =>
      show pVal (g + 1) ('-' :: (natDigits (m + 1) ++ rest)) =
        some (JVal.int (Int.negSucc m), rest)
      rw [pVal_succ_num g '-' (natDigits (m + 1) ++ rest) (Or.inl rfl)]
      rw [show ('-' :: (natDigits (m + 1) ++ rest)) = dumpInt (Int.negSucc m) ++ rest from rfl,
        pInt_dumpInt _ rest hrest]
  | str s =>
    intro f fuel rest hf hfuel hrest
    rcases f with _ | f
    · simp [jsize] at hf
    rcases fuel with _ | g
    · omega
    show pVal (g + 1) (('"' :: escList s.toList ++ ['"']) ++ rest) = some (.str s, rest)
    have hshape : (('"' :: escList s.toList ++ ['"']) ++ rest) =
        '"' :: (escList s.toList ++ '"' :: rest) := by
      simp
    rw [hshape, pVal_succ_str, pString_escList]
    exact rfl
  | arr xs hmem ih =>
    intro f fuel rest hf hfuel hrest
    rcases f with _ | f
    · rw [jsize_arr_eq] at hf
      omega
    rcases fuel with _ | g
    · omega
    have hfy : ∀ y ∈ xs, jsize y ≤ f := by
      intro y hy
      have := jsize_lt_arr xs y hy
      omega
    cases xs with
    | nil =>
      show pVal (g + 1) (('[' :: joinSep (toL ", ") (dumpVal f) [] ++ [']']) ++ rest) =
        some (.arr [], rest)
      exact rfl
    | cons x xs' =>
      have hfx : jsize x ≤ f := hfy x (by simp)
      obtain ⟨c, ct, hct, hcws, hcrb, hccb, hccm⟩ := dumpVal_head x f hfx
      have hJ : (dumpVal (f + 1) (.arr (x :: xs'))).length =
          1 + (joinSep (toL ", ") (dumpVal f) (x :: xs')).length + 1 := by
        show ('[' :: joinSep (toL ", ") (dumpVal f) (x :: xs') ++ [']']).length = _
        simp
        omega
      have hlenx : ∀ y ∈ x :: xs',
          (dumpVal f y).length ≤ (joinSep (toL ", ") (dumpVal f) (x :: xs')).length :=
        fun y hy => joinSep_length_ge _ _ _ y hy
      have hcount : (x :: xs').length ≤
          (joinSep (toL ", ") (dumpVal f) (x :: xs')).length :=
        joinSep_length_count _ _ _ (fun y hy => dumpVal_length_pos y f (hfy y hy))
      have hjshape := joinSep_cons (toL ", ") (dumpVal f) x xs'
      have hshape : dumpVal (f + 1) (.arr (x :: xs')) ++ rest =
          '[' :: (dumpVal f x ++
            ((xs'.map (fun y => toL ", " ++ dumpVal f y)).flatten ++ ']' :: rest)) := by
        show ('[' :: joinSep (toL ", ") (dumpVal f) (x :: xs') ++ [']']) ++ rest = _
        rw [hjshape]
        simp
      rw [hshape, pVal_succ_arr]
      have hshape2 : dumpVal f x ++
          ((xs'.map (fun y => toL ", " ++ dumpVal f y)).flatten ++ ']' :: rest) =
          c :: (ct ++ ((xs'.map (fun y => toL ", " ++ dumpVal f y)).flatten ++ ']' :: rest)) := by
        rw [hct]
        rfl
      rw [hshape2, arr_body_skip_close g c _ hcrb hcws, ← hshape2]
      have hnd : noDigitHead
          ((xs'.map (fun y => toL ", " ++ dumpVal f y)).flatten ++ ']' :: rest) := by
        cases xs' with
        | nil => exact noDigitHead_cons _ _ (by decide)
        | cons y ys =>
          rw [show (((y :: ys).map (fun z => toL ", " ++ dumpVal f z)).flatten
            ++ ']' :: rest) =
            ',' :: (' ' :: (dumpVal f y ++
              ((ys.map (fun z => toL ", " ++ dumpVal f z)).flatten ++ ']' :: rest))) by
              simp [toL]]
          exact noDigitHead_cons _ _ (by decide)
      have hlx : (dumpVal f x).length < g := by
        have h1 := hlenx x (by simp)
        rw [hJ] at hfuel
        omega
      rw [ih x (by simp) f g _ hfx hlx hnd]
      simp only []
      have hrt := pListRest_rt (pVal g) f xs' g rest
        (fun y hy r' hr' => by
          rw [pVal_space]
          refine ih y (by simp [hy]) f g r' (hfy y (by simp [hy])) ?_ hr'
          have h1 := hlenx y (by simp [hy])
          rw [hJ] at hfuel
          omega)
        (by
          rw [hJ] at hfuel
          simp only [List.length_cons] at hcount
          omega)
        hrest
      rw [hrt]
  | obj ms hnd hmem ih =>
    intro f fuel rest hf hfuel hrest
    rcases f with _ | f
    · rw [jsize_obj_eq] at hf
      omega
    rcases fuel with _ | g
    · omega
    have hfy : ∀ m ∈ ms, jsize m.2 ≤ f := by
      intro m hm
      have := jsize_lt_obj ms m hm
      omega
    cases ms with
    | nil =>
      show pVal (g + 1) (('\x7b' ::
        joinSep (toL ", ")
          (fun p : String × JVal => '"' :: escList p.1.toList ++ '"' :: ':' :: ' ' :: dumpVal f p.2) [] ++
        ['\x7d']) ++ rest) = some (.obj [], rest)
      exact rfl
    | cons m ms' =>
      have hfm : jsize m.2 ≤ f := hfy m (by simp)
      have hJ : (dumpVal (f + 1) (.obj (m :: ms'))).length =
          1 + (joinSep (toL ", ")
            (fun p : String × JVal => '"' :: escList p.1.toList ++ '"' :: ':' :: ' ' :: dumpVal f p.2)
            (m :: ms')).length + 1 := by
        show ('\x7b' :: joinSep (toL ", ")
          (fun p : String × JVal => '"' :: escList p.1.toList ++ '"' :: ':' :: ' ' :: dumpVal f p.2)
          (m :: ms') ++ ['\x7d']).length = _
        simp
        omega
      have hlenm : ∀ p ∈ m :: ms',
          (dumpVal f p.2).length ≤ (joinSep (toL ", ")
            (fun p : String × JVal => '"' :: escList p.1.toList ++ '"' :: ':' :: ' ' :: dumpVal f p.2)
            (m :: ms')).length := by
        intro p hp
        have h1 := joinSep_length_ge (toL ", ")
          (fun p : String × JVal => '"' :: escList p.1.toList ++ '"' :: ':' :: ' ' :: dumpVal f p.2)
          (m :: ms') p hp
        simp only [List.length_cons, List.length_append] at h1
        omega
      have hcount : (m :: ms').length ≤ (joinSep (toL ", ")
          (fun p : String × JVal => '"' :: escList p.1.toList ++ '"' :: ':' :: ' ' :: dumpVal f p.2)
          (m :: ms')).length := by
        refine joinSep_length_count _ _ _ (fun p hp => ?_)
        simp
      have hjshape := joinSep_cons (toL ", ")
        (fun p : String × JVal => '"' :: escList p.1.toList ++ '"' :: ':' :: ' ' :: dumpVal f p.2) m ms'
      have hshape : dumpVal (f + 1) (.obj (m :: ms')) ++ rest =
          '\x7b' :: (('"' :: escList m.1.toList ++ '"' :: ':' :: ' ' :: dumpVal f m.2) ++
            (((ms'.map (fun p => toL ", " ++
              ('"' :: escList p.1.toList ++ '"' :: ':' :: ' ' :: dumpVal f p.2))).flatten ++
              '\x7d' :: rest))) := by
        show ('\x7b' :: joinSep (toL ", ")
          (fun p : String × JVal => '"' :: escList p.1.toList ++ '"' :: ':' :: ' ' :: dumpVal f p.2)
          (m :: ms') ++ ['\x7d']) ++ rest = _
        rw [hjshape]
        simp
      rw [hshape, pVal_succ_obj]
      have hshape2 : (('"' :: escList m.1.toList ++ '"' :: ':' :: ' ' :: dumpVal f m.2) ++
          (((ms'.map (fun p => toL ", " ++
            ('"' :: escList p.1.toList ++ '"' :: ':' :: ' ' :: dumpVal f p.2))).flatten ++
            '\x7d' :: rest))) =
          '"' :: ((escList m.1.toList ++ '"' :: ':' :: ' ' :: dumpVal f m.2) ++
            (((ms'.map (fun p => toL ", " ++
              ('"' :: escList p.1.toList ++ '"' :: ':' :: ' ' :: dumpVal f p.2))).flatten ++
              '\x7d' :: rest))) := by
        simp
      rw [hshape2, obj_body_skip_close g '"' _ (by decide) (by decide), ← hshape2]
      have hndm : noDigitHead
          (((ms'.map (fun p => toL ", " ++
            ('"' :: escList p.1.toList ++ '"' :: ':' :: ' ' :: dumpVal f p.2))).flatten ++
            '\x7d' :: rest)) := by
        cases ms' with
        | nil => exact noDigitHead_cons _ _ (by decide)
        | cons p ps =>
          rw [show (((p :: ps).map (fun q => toL ", " ++
            ('"' :: escList q.1.toList ++ '"' :: ':' :: ' ' :: dumpVal f q.2))).flatten
            ++ '\x7d' :: rest) =
            ',' :: (' ' :: (('"' :: escList p.1.toList ++ '"' :: ':' :: ' ' ::
              dumpVal f p.2) ++
              ((ps.map (fun q => toL ", " ++
                ('"' :: escList q.1.toList ++ '"' :: ':' :: ' ' :: dumpVal f q.2))).flatten ++
                '\x7d' :: rest))) by simp [toL]]
          exact noDigitHead_cons _ _ (by decide)
      have hlm : (dumpVal f m.2).length < g := by
        have h1 := hlenm m (by simp)
        rw [hJ] at hfuel
        omega
      have hmem1 := pMemberF_rt (pVal g) f m.1 m.2 _
        (fun r'' hr'' => by
          rw [pVal_space]
          exact ih m (by simp) f g r'' hfm hlm hr'')
        hndm
      rw [hmem1]
      simp only []
      have hrt := pObjRest_rt (pMemberF (pVal g)) f ms' g rest
        (fun p hp r' hr' => by
          rw [pMemberF_congr (pVal g) _ _ (skipWs_space _)]
          refine pMemberF_rt (pVal g) f p.1 p.2 r' (fun r'' hr'' => ?_) hr'
          rw [pVal_space]
          refine ih p (by simp [hp]) f g r'' (hfy p (by simp [hp])) ?_ hr''
          have h1 := hlenm p (by simp [hp])
          rw [hJ] at hfuel
          omega)
        (by
          rw [hJ] at hfuel
          simp only [List.length_cons] at hcount
          omega)
        hrest
      rw [hrt]
      simp only []
      rw [objFoldl_of_nodup (m :: ms') [] (by simpa using hnd)]
      exact rfl

theorem loads_dumps (v : JVal) (hwf : Wf v) : loads (dumps v) = some v := by
  unfold loads dumps
  have hrt := pVal_dump_rt v hwf (jsize v) ((dumpVal (jsize v) v).length + 1) []
    le_rfl (by omega) trivial
  rw [List.append_nil] at hrt
  rw [show (String.mk (dumpVal (jsize v) v)).length = (dumpVal (jsize v) v).length from rfl,
    show (String.mk (dumpVal (jsize v) v)).toList = dumpVal (jsize v) v from rfl,
    hrt]
  exact rfl

theorem pyStrip_dumps_obj_ne (ms : List (String × JVal)) :
    pyStrip (dumps (.obj ms)) ≠ "" := by
  obtain ⟨l, hl⟩ := dumps_obj_head ms
  rw [hl]
  unfold pyStrip
  rw [show (String.mk ('\x7b' :: l)).toList = '\x7b' :: l from rfl]
  rw [show (('\x7b' :: l).dropWhile pyWsChar) = '\x7b' :: l by
    rw [List.dropWhile_cons_of_neg (by decide)]]
  intro hcontra
  have hdata : ((('\x7b' :: l).reverse.dropWhile pyWsChar).reverse) = [] :=
    congrArg String.data hcontra
  rw [List.reverse_eq_nil_iff, List.dropWhile_eq_nil_iff] at hdata
  have := hdata '\x7b' (by simp)
  exact absurd this (by decide)

theorem respWithArgs_inputs (args : JVal) :
    (parse_openai_response (respWithArgs args)).map respInputs = some [decodeArgs args] := by
  have hred : parse_openai_response (respWithArgs args) =
      some { model := .str "", blocks := [.tool_use (.str "") (.str "") (decodeArgs args)],
             stop_reason := "end_turn",
             usage := { input_tokens := 0, output_tokens := 0 } } := by
    unfold parse_openai_response respWithArgs
    simp [asObj?, oget, pyOr, truthy, asStr?, tcsToBlocks, tcToBlock, pyInt]
    rfl
  rw [hred]
  rfl

/-! ## C8: argument round-trip -/

theorem pyOr_obj_empty (fs : List (String × JVal)) :
    pyOr (.obj fs) (.obj []) = .obj fs := by
  rcases fs with _ | ⟨p, ps⟩ <;> simp [pyOr, truthy]

/-- C8: a tool-use block whose input is any JSON object representable
as Python data (every nested dict has distinct keys) survives the
trip through the bridge: the request side JSON-encodes it into the tool
call's `arguments` string, and feeding that string back through the
response-side translation decodes it to an equal object. -/
theorem c8_argument_roundtrip (fs : List (String × JVal)) (hwf : Wf (.obj fs)) :
    (parse_openai_response (respWithArgs (.str (argsOf (blocks_to_openai_messages
        "assistant" (.arr [.obj [("type", .str "tool_use"), ("input", .obj fs)]])))))).map
      respInputs = some [.obj fs] := by
  have hargs : argsOf (blocks_to_openai_messages "assistant"
      (.arr [.obj [("type", .str "tool_use"), ("input", .obj fs)]])) = dumps (.obj fs) := by
    show dumps (pyOr (oget [("type", JVal.str "tool_use"), ("input", JVal.obj fs)] "input")
      (.obj [])) = _
    rw [show oget [("type", JVal.str "tool_use"), ("input", JVal.obj fs)] "input" =
      JVal.obj fs from rfl]
    rw [pyOr_obj_empty]
  rw [hargs, respWithArgs_inputs]
  have hdec : decodeArgs (.str (dumps (.obj fs))) = .obj fs := by
    show (if pyStrip (dumps (.obj fs)) ≠ "" then
        match loads (dumps (.obj fs)) with
        | some v => v
        | none => JVal.obj [("_raw", JVal.str (dumps (.obj fs)))]
      else JVal.obj []) = .obj fs
    rw [if_pos (pyStrip_dumps_obj_ne fs), loads_dumps _ hwf]
  rw [hdec]

/-- Witness for `c8_argument_roundtrip` at the object with one entry
mapping `"q"` to `"x"`. -/
theorem c8_argument_roundtrip_witness :
    (parse_openai_response (respWithArgs (.str (argsOf (blocks_to_openai_messages
        "assistant" (.arr [.obj [("type", .str "tool_use"),
          ("input", .obj [("q", .str "x")])]])))))).map
      respInputs = some [.obj [("q", .str "x")]] :=
  c8_argument_roundtrip [("q", .str "x")]
    (Wf.obj _ (by simp) (by
      intro m hm
      simp only [List.mem_singleton] at hm
      subst hm
      exact Wf.str _))
